import Mathlib

/-!
# pbRPCpp: the TCP transport of the RPC server (`src/TcpRpcServer.cpp`)

A shallow embedding of `TcpRpcServer` and of its nested `ClientData`.

* A `std::string` is a list of bytes.  The server never inspects a byte.
* `shared_ptr<ClientData>` is an address into `TcpRpcServer.heap`; the registry and
  the pending asynchronous operations hold addresses, so a change made through one
  holder is seen by the others.  Destruction of a `ClientData` whose last holder has
  gone is not represented.
* `RpcMessage` (the wire codec) is not part of this file of the repository: it is a parameter.
* `ThreadSafeMap`, `getProcessingRequests`, `stop_` and `messageReceived` are declared
  outside this file as well; see the comments at their definitions.  Whether a call of
  `messageReceived` returns or throws is a parameter (`Hook`).  No other call is taken to
  throw: running out of memory is not represented.
* Calls on collaborators (the registry, the io_service, the application hook) are
  recorded as `Effect`s, in program order.  `GOOGLE_LOG` lines are not recorded.
* `none` stands for "no defined behaviour": a null or dangling pointer is dereferenced,
  the signed id counter overflows, or a loop has not finished within the given fuel.
-/

namespace pbrpcpp

/-- One `char` of a `std::string`. -/
abbrev Byte := Fin 256

/-- A `std::string`. -/
abbrev Bytes := List Byte

/-- An address of a heap-allocated `ClientData` (what a `shared_ptr<ClientData>` holds). -/
abbrev Addr := Nat

/-- The three ways a call `RpcMessage::extractNetPacket(s, packet)` can end.  Both
arguments are passed by reference, so each outcome carries the buffer `s` as the call
left it. -/
inductive Extracted where
  /-- returned `true`: `packet` holds `msg`, the buffer holds `rest` -/
  | packet (msg : Bytes) (rest : Bytes)
  /-- returned `false` -/
  | incomplete (rest : Bytes)
  /-- threw -/
  | malformed (rest : Bytes)
deriving DecidableEq, Repr

/-- The two static functions of `RpcMessage` this file calls.  Their code is outside
this file, so they are parameters of the embedding. -/
structure RpcMessage where
  extractNetPacket : Bytes → Extracted
  serializeNetPacket : Bytes → Bytes

/-- The application hook `messageReceived( clientId, msg )`, a virtual method whose body is
outside this file: `true` when the call returns, `false` when it throws.  What the hook
does to the server (a call of `sendResponse`, say) is a separate event. -/
abbrev Hook := Int → Bytes → Bool

/-- The largest `int`; ids are `int` (`ClientData( int clientId, ... )`). -/
def INT_MAX : Int := 2147483647

/-! ## ThreadSafeMap -/

/-- Modelled from the spec: `ThreadSafeMap< int, shared_ptr<ClientData> >` (ThreadSafeMap.hpp
is not among the sources).  Section 3 of the specification: a mapping from ClientId to
Connection with atomic insert, lookup, remove and clear; removing an absent id is a no-op;
the bulk clear removes every entry. -/
structure ThreadSafeMap where
  entries : List (Int × Addr)
deriving DecidableEq, Repr

namespace ThreadSafeMap

/-- The map a freshly constructed `ThreadSafeMap` holds. -/
def empty : ThreadSafeMap := ⟨[]⟩

/-- Modelled from the spec: `get(key)`, the stored pointer or a null pointer. -/
def get (m : ThreadSafeMap) (key : Int) : Option Addr :=
  m.entries.lookup key

/-- Modelled from the spec: `erase(key)`; an absent key is a no-op. -/
def erase (m : ThreadSafeMap) (key : Int) : ThreadSafeMap :=
  ⟨m.entries.filter (fun e => e.1 != key)⟩

/-- Modelled from the spec: `insert(key, value)`. -/
def insert (m : ThreadSafeMap) (key : Int) (value : Addr) : ThreadSafeMap :=
  ⟨(key, value) :: (m.erase key).entries⟩

/-- Modelled from the spec: `erase_all()`, the bulk clear. -/
def erase_all (_m : ThreadSafeMap) : ThreadSafeMap := ⟨[]⟩

end ThreadSafeMap

/-! ## ClientData -/

/-- Class `TcpRpcServer::ClientData`.  `msgBuffer_`, the scratch array a read fills, is
represented by the chunk a read completion carries. -/
structure ClientData where
  clientId_ : Int
  /-- whether `clientSock_` is open -/
  sockOpen : Bool
  receivedMsg_ : Bytes
deriving DecidableEq, Repr

/-- Constructor `ClientData::ClientData( clientId, io_service )`: the socket is not yet connected. -/
def ClientData.new (clientId : Int) : ClientData :=
  { clientId_ := clientId, sockOpen := false, receivedMsg_ := [] }

/-- Method `ClientData::extractMessage(msg)`: the updated object, and `some msg` when the call
returns `true`.  A throw of the codec is caught, the socket is closed and `false` is
returned. -/
def ClientData.extractMessage (codec : RpcMessage) (cd : ClientData) :
    ClientData × Option Bytes :=
  match codec.extractNetPacket cd.receivedMsg_ with
  | .packet msg rest => ({ cd with receivedMsg_ := rest }, some msg)
  | .incomplete rest => ({ cd with receivedMsg_ := rest }, none)
  | .malformed rest => ({ cd with receivedMsg_ := rest, sockOpen := false }, none)

/-! ## Effects -/

/-- A call the server makes on one of its collaborators. -/
inductive Effect where
  /-- the call `messageReceived( clientId, msg )` of the application hook -/
  | messageReceived (clientId : Int) (msg : Bytes)
  | asyncAccept (conn : Addr)
  | asyncRead (conn : Addr)
  | asyncWrite (conn : Addr) (data : Bytes)
  | registryInsert (clientId : Int) (conn : Addr)
  | registryErase (clientId : Int)
  | registryEraseAll
  | ioStop
  | yield
deriving DecidableEq, Repr

/-! ## TcpRpcServer -/

/-- The members of `TcpRpcServer` the embedded functions touch, with the operations
outstanding on `io_service_`. -/
structure TcpRpcServer where
  nextClientId_ : Int
  io_service_stopped_ : Bool
  /-- Member `stop_`: read by `connAccepted`, never written in this file -/
  stop_ : Bool
  /-- Member `acceptor_`: `none` is the null pointer, `some true` an open listening socket,
  `some false` a closed one -/
  acceptor_ : Option Bool
  clientDataMgr_ : ThreadSafeMap
  heap : List ClientData
  /-- the value `getProcessingRequests()` returns -/
  processingRequests : Nat
  /-- the `ClientData` bound to the outstanding `async_accept` -/
  pendingAccept : Option Addr
  /-- the outstanding `async_read`s -/
  pendingReads : List Addr
  /-- the outstanding `async_write`s -/
  pendingWrites : List (Addr × Bytes)
  /-- whether `io_service_.stop()` has been called -/
  ioStopRequested : Bool
deriving DecidableEq, Repr

namespace TcpRpcServer

/-- Constructor `TcpRpcServer::TcpRpcServer( listenAddr, listenPort )`.  The constructor initialises
neither `stop_` nor the in-flight counter; their values are arguments. -/
def new (stop : Bool) (processing : Nat) : TcpRpcServer :=
  { nextClientId_ := 0
    io_service_stopped_ := true
    stop_ := stop
    acceptor_ := none
    clientDataMgr_ := ThreadSafeMap.empty
    heap := []
    processingRequests := processing
    pendingAccept := none
    pendingReads := []
    pendingWrites := []
    ioStopRequested := false }

/-- Method `getProcessingRequests()`; its body is outside this file. -/
def getProcessingRequests (s : TcpRpcServer) : Nat := s.processingRequests

/-- Method `TcpRpcServer::startRead( clientData )`; `none` is the null pointer. -/
def startRead (s : TcpRpcServer) (clientData : Option Addr) : TcpRpcServer × List Effect :=
  match clientData with
  | some conn => ({ s with pendingReads := s.pendingReads ++ [conn] }, [Effect.asyncRead conn])
  | none => (s, [])

/-- Method `TcpRpcServer::startAccept()`.  Undefined when `acceptor_` is null and when
`nextClientId_++` overflows. -/
def startAccept (s : TcpRpcServer) : Option (TcpRpcServer × List Effect) :=
  match s.acceptor_ with
  | none => none
  | some _ =>
    if s.nextClientId_ < INT_MAX then
      let conn : Addr := s.heap.length
      some ({ s with
                heap := s.heap ++ [ClientData.new s.nextClientId_]
                nextClientId_ := s.nextClientId_ + 1
                pendingAccept := some conn },
            [Effect.asyncAccept conn])
    else none

/-- Method `TcpRpcServer::connAccepted( clientData, ec )`; `ec` is `true` when the error code is set. -/
def connAccepted (s : TcpRpcServer) (clientData : Addr) (ec : Bool) :
    Option (TcpRpcServer × List Effect) :=
  if ec || s.stop_ then
    some (s, [])
  else
    match s.heap[clientData]? with
    | none => none
    | some cd =>
      let s1 := { s with clientDataMgr_ := s.clientDataMgr_.insert cd.clientId_ clientData }
      let r2 := startRead s1 (some clientData)
      match startAccept r2.1 with
      | none => none
      | some r3 => some (r3.1, Effect.registryInsert cd.clientId_ clientData :: (r2.2 ++ r3.2))

/-- The loop `while( clientData->extractMessage( msg ) ) messageReceived( clientId_, msg );`
of `clientDataReceived`, with a bound on the number of iterations.  The result carries the
object, the calls made, and whether the loop ended normally (`true`) or was left by a throw
of the hook (`false`). -/
def extractLoop (codec : RpcMessage) (hook : Hook) :
    Nat → ClientData → Option (ClientData × List Effect × Bool)
  | 0, _ => none
  | fuel + 1, cd =>
    match cd.extractMessage codec with
    | (cd1, some msg) =>
      if hook cd1.clientId_ msg then
        match extractLoop codec hook fuel cd1 with
        | none => none
        | some r => some (r.1, Effect.messageReceived cd1.clientId_ msg :: r.2.1, r.2.2)
      else some (cd1, [Effect.messageReceived cd1.clientId_ msg], false)
    | (cd1, none) => some (cd1, [], true)

/-- Method `TcpRpcServer::clientDataReceived( ec, bytes_transferred, clientData )`; `chunk` is
the first `bytes_transferred` bytes of `msgBuffer_`.  Lines 178 to 189 are a
`try { ... } catch( ... ) { }`: a throw of the hook ends the call, the bytes extracted so far
stay consumed and `startRead` on line 187 is not reached. -/
def clientDataReceived (codec : RpcMessage) (hook : Hook) (fuel : Nat) (s : TcpRpcServer)
    (ec : Bool) (chunk : Bytes) (clientData : Addr) : Option (TcpRpcServer × List Effect) :=
  match s.heap[clientData]? with
  | none => none
  | some cd =>
    if ec then
      some ({ s with clientDataMgr_ := s.clientDataMgr_.erase cd.clientId_ },
            [Effect.registryErase cd.clientId_])
    else
      match extractLoop codec hook fuel { cd with receivedMsg_ := cd.receivedMsg_ ++ chunk } with
      | none => none
      | some r =>
        let s1 := { s with heap := s.heap.set clientData r.1 }
        if r.2.2 then
          let r2 := startRead s1 (some clientData)
          some (r2.1, r.2.1 ++ r2.2)
        else some (s1, r.2.1)

/-- Method `TcpRpcServer::messageSent( ec, bytes_transferred, buf )`: it only logs. -/
def messageSent (s : TcpRpcServer) (_ec : Bool) : TcpRpcServer := s

/-- Method `TcpRpcServer::sendResponse( clientId, msg )`. -/
def sendResponse (codec : RpcMessage) (s : TcpRpcServer) (clientId : Int) (msg : Bytes) :
    TcpRpcServer × List Effect :=
  match s.clientDataMgr_.get clientId with
  | some conn =>
    let data := codec.serializeNetPacket msg
    ({ s with pendingWrites := s.pendingWrites ++ [(conn, data)] }, [Effect.asyncWrite conn data])
  | none => (s, [])

/-! ### Shutdown

`Shutdown` spins on state that other threads change, so it is embedded as a small-step
function: one call of `ShutdownStep` executes the statement at the program counter. -/

/-- The statement of `TcpRpcServer::Shutdown()` a thread is about to execute. -/
inductive ShutdownPc where
  /-- line 77: `if( io_service_stopped_ ) return;` -/
  | entry
  /-- lines 81 to 85: `if( acceptor_ )` cancel and close it -/
  | closeAcceptor
  /-- lines 87 to 89: `while( getProcessingRequests() > 0 ) yield();` -/
  | waitRequests
  /-- line 91: `clientDataMgr_->erase_all();` -/
  | eraseAll
  /-- line 93: `io_service_.stop();` -/
  | stopIo
  /-- lines 95 to 97: `while( !io_service_stopped_ ) yield();` -/
  | waitStopped
  /-- the call has returned -/
  | returned
deriving DecidableEq, Repr

/-- One statement of `TcpRpcServer::Shutdown()`. -/
def ShutdownStep (s : TcpRpcServer) : ShutdownPc → TcpRpcServer × ShutdownPc × List Effect
  | .entry =>
    if s.io_service_stopped_ then (s, .returned, []) else (s, .closeAcceptor, [])
  | .closeAcceptor =>
    match s.acceptor_ with
    | some _ => ({ s with acceptor_ := some false }, .waitRequests, [])
    | none => (s, .waitRequests, [])
  | .waitRequests =>
    if s.getProcessingRequests > 0 then (s, .waitRequests, [Effect.yield])
    else (s, .eraseAll, [])
  | .eraseAll =>
    ({ s with clientDataMgr_ := s.clientDataMgr_.erase_all }, .stopIo, [Effect.registryEraseAll])
  | .stopIo =>
    ({ s with ioStopRequested := true }, .waitStopped, [Effect.ioStop])
  | .waitStopped =>
    if !s.io_service_stopped_ then (s, .waitStopped, [Effect.yield]) else (s, .returned, [])
  | .returned => (s, .returned, [])

/-! ### Run

`Run` blocks in `io_service_.run()`, which dispatches the completion handlers.  It is
embedded as three pieces; the handlers run between the second and the third. -/

/-- Lines 57 to 68 of `TcpRpcServer::Run()`, the address having resolved: the acceptor is
created on the endpoint and the first accept is started. -/
def RunBind (s : TcpRpcServer) : Option (TcpRpcServer × List Effect) :=
  startAccept { s with acceptor_ := some true }

/-- Line 70 of `TcpRpcServer::Run()`: `io_service_stopped_ = false;`. -/
def RunMarkStarted (s : TcpRpcServer) : TcpRpcServer :=
  { s with io_service_stopped_ := false }

/-- Line 72 of `TcpRpcServer::Run()`, after `io_service_.run()` has returned:
`io_service_stopped_ = true;`. -/
def RunMarkStopped (s : TcpRpcServer) : TcpRpcServer :=
  { s with io_service_stopped_ := true }

/-- The io_service takes the outstanding accept off its queue before it calls the handler;
on success the accepted socket is connected. -/
def completeAccept (s : TcpRpcServer) (conn : Addr) (cd : ClientData) (ok : Bool) :
    TcpRpcServer :=
  { s with
      pendingAccept := none
      heap := if ok then s.heap.set conn { cd with sockOpen := true } else s.heap }

/-- The io_service takes a completed read off its queue before it calls the handler. -/
def completeRead (s : TcpRpcServer) (conn : Addr) : TcpRpcServer :=
  { s with pendingReads := s.pendingReads.erase conn }

/-- The io_service takes a completed write off its queue before it calls the handler. -/
def completeWrite (s : TcpRpcServer) (conn : Addr) (data : Bytes) : TcpRpcServer :=
  { s with pendingWrites := s.pendingWrites.erase (conn, data) }

/-- Whether `io_service_` has no outstanding operation. -/
def outOfWork (s : TcpRpcServer) : Bool :=
  s.pendingAccept.isNone && s.pendingReads.isEmpty && s.pendingWrites.isEmpty

end TcpRpcServer

/-! ## The server with its threads

The thread inside `Run`, a thread calling `Shutdown`, and the callers of `sendResponse`
interleave.  `io_service::run()` dispatches one completion handler at a time and returns
once `stop()` has been called or no operation is outstanding (the Boost.Asio contract).

`Shutdown` advances statement by statement.  A completion handler is one event.  The only
members both a handler and `Shutdown` touch are the registry and the acceptor, and
`erase_all()` and the closing of the acceptor commute with every statement of a handler
but the insert on line 154, which may come before or after them: the handler may run, and
insert, after `Shutdown` has closed the acceptor and cleared the registry.  An accept may
complete without error whatever the acceptor's state when the handler runs, the connection
having been accepted before the acceptor was closed. -/

/-- Where the thread that calls `Run` is. -/
inductive RunPc where
  | notStarted
  /-- after `startAccept()` on line 68, before line 70 -/
  | bound
  /-- inside `io_service_.run()` -/
  | looping
  /-- after line 72 -/
  | returned
deriving DecidableEq, Repr

/-- The server object and the program counters of the two threads. -/
structure Sys where
  srv : TcpRpcServer
  runPc : RunPc
  /-- Absent while `Shutdown` has never been called. -/
  shutdownPc : Option TcpRpcServer.ShutdownPc
deriving DecidableEq, Repr

/-- The state after construction. -/
def Sys.init (stop : Bool) (processing : Nat) : Sys :=
  { srv := TcpRpcServer.new stop processing, runPc := .notStarted, shutdownPc := none }

/-- What can happen next. -/
inductive Event where
  /-- `Run()` is called and reaches line 68 -/
  | runBind
  /-- line 70 of `Run()` -/
  | runMarkStarted
  /-- the outstanding accept completes; `ok` is `false` when its error code is set -/
  | acceptDone (ok : Bool)
  /-- an outstanding read on `conn` completes with error flag `ec`, having transferred `chunk`;
  `fuel` bounds the iterations of the extraction loop -/
  | readDone (conn : Addr) (ec : Bool) (chunk : Bytes) (fuel : Nat)
  /-- an outstanding write completes -/
  | writeDone (conn : Addr) (data : Bytes) (ec : Bool)
  /-- `io_service_.run()` returns and line 72 of `Run()` executes -/
  | runLoopExit
  /-- some thread calls `sendResponse( clientId, msg )` -/
  | sendResponse (clientId : Int) (msg : Bytes)
  /-- a thread calls `Shutdown()` -/
  | shutdownCall
  /-- the thread inside `Shutdown()` executes its next statement -/
  | shutdownStep
  /-- code outside this file assigns `stop_` -/
  | setStop (b : Bool)
  /-- the value of `getProcessingRequests()` changes -/
  | setProcessing (n : Nat)
deriving DecidableEq, Repr

open TcpRpcServer in
/-- One event; `none` when the event cannot happen in this state or has no defined
behaviour. -/
def Sys.step (codec : RpcMessage) (hook : Hook) (x : Sys) :
    Event → Option (Sys × List Effect)
  | .runBind =>
    if x.runPc = .notStarted then
      match RunBind x.srv with
      | some r => some ({ x with srv := r.1, runPc := .bound }, r.2)
      | none => none
    else none
  | .runMarkStarted =>
    if x.runPc = .bound then
      some ({ x with srv := RunMarkStarted x.srv, runPc := .looping }, [])
    else none
  | .acceptDone ok =>
    match x.srv.pendingAccept with
    | none => none
    | some conn =>
      match x.srv.heap[conn]? with
      | none => none
      | some cd =>
        if x.runPc = .looping then
          match connAccepted (completeAccept x.srv conn cd ok) conn (!ok) with
          | some r => some ({ x with srv := r.1 }, r.2)
          | none => none
        else none
  | .readDone conn ec chunk fuel =>
    match x.srv.heap[conn]? with
    | none => none
    | some cd =>
      if x.runPc = .looping ∧ conn ∈ x.srv.pendingReads
          ∧ (ec = false → cd.sockOpen = true ∧ chunk ≠ []) then
        match clientDataReceived codec hook fuel (completeRead x.srv conn) ec chunk conn with
        | some r => some ({ x with srv := r.1 }, r.2)
        | none => none
      else none
  | .writeDone conn data ec =>
    if x.runPc = .looping ∧ (conn, data) ∈ x.srv.pendingWrites then
      some ({ x with srv := messageSent (completeWrite x.srv conn data) ec }, [])
    else none
  | .runLoopExit =>
    if x.runPc = .looping ∧ (x.srv.ioStopRequested = true ∨ x.srv.outOfWork = true) then
      some ({ x with srv := RunMarkStopped x.srv, runPc := .returned }, [])
    else none
  | .sendResponse clientId msg =>
    let r := TcpRpcServer.sendResponse codec x.srv clientId msg
    some ({ x with srv := r.1 }, r.2)
  | .shutdownCall =>
    if x.shutdownPc = none ∨ x.shutdownPc = some .returned then
      some ({ x with shutdownPc := some .entry }, [])
    else none
  | .shutdownStep =>
    match x.shutdownPc with
    | none => none
    | some .returned => none
    | some pc =>
      let r := ShutdownStep x.srv pc
      some ({ x with srv := r.1, shutdownPc := some r.2.1 }, r.2.2)
  | .setStop b => some ({ x with srv := { x.srv with stop_ := b } }, [])
  | .setProcessing n => some ({ x with srv := { x.srv with processingRequests := n } }, [])

/-- A schedule: the events in the order they happen, with the effects they cause. -/
def Sys.run (codec : RpcMessage) (hook : Hook) :
    List Event → Sys → Option (Sys × List Effect)
  | [], x => some (x, [])
  | e :: es, x =>
    match x.step codec hook e with
    | none => none
    | some r =>
      match Sys.run codec hook es r.1 with
      | none => none
      | some r2 => some (r2.1, r.2 ++ r2.2)

/-! ## Framing: what the claims about the read loop refer to -/

/-- The frames a codec extracts from a whole byte stream, in stream order, and the bytes
left over: extraction is repeated until it yields no packet.  This follows the wording of
the specification ("call the codec repeatedly until it yields nothing"), not the server. -/
def framesOf (codec : RpcMessage) : Nat → Bytes → Option (List Bytes × Bytes)
  | 0, _ => none
  | fuel + 1, buf =>
    match codec.extractNetPacket buf with
    | .packet msg rest =>
      match framesOf codec fuel rest with
      | none => none
      | some r => some (msg :: r.1, r.2)
    | .incomplete rest => some ([], rest)
    | .malformed rest => some ([], rest)

/-- What the specification asks of the external codec: a frame is self-delimited.  A
packet consumes at least one leading byte and is extracted regardless of the bytes that
follow it; a call that yields no packet leaves the buffer as it was. -/
structure SelfDelimiting (codec : RpcMessage) : Prop where
  consumes : ∀ buf msg rest, codec.extractNetPacket buf = .packet msg rest →
    rest.length < buf.length
  stable : ∀ buf msg rest more, codec.extractNetPacket buf = .packet msg rest →
    codec.extractNetPacket (buf ++ more) = .packet msg (rest ++ more)
  keepsIncomplete : ∀ buf rest, codec.extractNetPacket buf = .incomplete rest → rest = buf
  keepsMalformed : ∀ buf rest, codec.extractNetPacket buf = .malformed rest → rest = buf

/-- The `messageReceived` calls among some effects, in order. -/
def messagesOf (effs : List Effect) : List (Int × Bytes) :=
  effs.filterMap fun e =>
    match e with
    | .messageReceived clientId msg => some (clientId, msg)
    | _ => none

/-- The ids inserted into the registry among some effects, in order. -/
def insertedIds (effs : List Effect) : List Int :=
  effs.filterMap fun e =>
    match e with
    | .registryInsert clientId _ => some clientId
    | _ => none

/-- Successive successful read completions on the connection `conn`, one per chunk. -/
def feed (codec : RpcMessage) (hook : Hook) (fuel : Nat) (conn : Addr) :
    List Bytes → TcpRpcServer → Option (TcpRpcServer × List Effect)
  | [], s => some (s, [])
  | chunk :: chunks, s =>
    match TcpRpcServer.clientDataReceived codec hook fuel s false chunk conn with
    | none => none
    | some r =>
      match feed codec hook fuel conn chunks r.1 with
      | none => none
      | some r2 => some (r2.1, r.2 ++ r2.2)

/-! ## A concrete codec for the examples -/

/-- A length-prefixed framing with which the codec parameter is instantiated in the
examples: one length byte, then that many payload bytes; the length byte 255 is rejected. -/
def sampleExtract : Bytes → Extracted
  | [] => .incomplete []
  | n :: rest =>
    if n.val = 255 then .malformed (n :: rest)
    else if rest.length < n.val then .incomplete (n :: rest)
    else .packet (rest.take n.val) (rest.drop n.val)

/-- The wire form of a payload of fewer than 255 bytes under the sample framing. -/
def sampleSerialize (msg : Bytes) : Bytes := Fin.ofNat msg.length :: msg

/-- The sample codec. -/
def sampleCodec : RpcMessage :=
  { extractNetPacket := sampleExtract, serializeNetPacket := sampleSerialize }

/-- A hook that returns on every message. -/
def sampleHook : Hook := fun _ _ => true

/-- A hook that throws on the message `[7, 8]` and returns on every other. -/
def throwingHook : Hook := fun _ msg => msg != [7, 8]

/-- A running server with one registered connection (address 0, id 0, open socket, empty
buffer) whose read has just completed, and an accept outstanding for address 1. -/
def sampleServer : TcpRpcServer :=
  { nextClientId_ := 2
    io_service_stopped_ := false
    stop_ := false
    acceptor_ := some true
    clientDataMgr_ := ⟨[(0, 0)]⟩
    heap := [{ clientId_ := 0, sockOpen := true, receivedMsg_ := [] }, ClientData.new 1]
    processingRequests := 0
    pendingAccept := some 1
    pendingReads := []
    pendingWrites := []
    ioStopRequested := false }

/-- A schedule: the server starts and accepts one connection, then `Shutdown` is called and
runs up to its last loop while the event loop exits. -/
def sampleShutdownRun : List Event :=
  [.runBind, .runMarkStarted, .acceptDone true, .shutdownCall, .shutdownStep, .shutdownStep,
   .shutdownStep, .shutdownStep, .shutdownStep, .runLoopExit]

/-- The state `sampleShutdownRun` leads to. -/
def sampleDrained : Sys :=
  { srv :=
      { nextClientId_ := 2
        io_service_stopped_ := true
        stop_ := false
        acceptor_ := some false
        clientDataMgr_ := ⟨[]⟩
        heap := [{ clientId_ := 0, sockOpen := true, receivedMsg_ := [] }, ClientData.new 1]
        processingRequests := 0
        pendingAccept := some 1
        pendingReads := [0]
        pendingWrites := []
        ioStopRequested := true }
    runPc := .returned
    shutdownPc := some .waitStopped }

/-- A running server with one registered connection and three requests in flight, on which
`Shutdown` has just been called. -/
def sampleBusy : Sys :=
  { srv := { sampleServer with processingRequests := 3, pendingReads := [0] }
    runPc := .looping
    shutdownPc := some .entry }

/-- Whether the extraction loop of connection `clientId` on `buf` ends because the codec
throws: every packet before that has been extracted and the hook has returned on it. -/
def endsMalformed (codec : RpcMessage) (hook : Hook) (clientId : Int) : Nat → Bytes → Bool
  | 0, _ => false
  | fuel + 1, buf =>
    match codec.extractNetPacket buf with
    | .packet msg rest => hook clientId msg && endsMalformed codec hook clientId fuel rest
    | .incomplete _ => false
    | .malformed _ => true

/-- What one effect does to the list of inserts not yet cleared. -/
def registryTrack (acc : List (Int × Addr)) : Effect → List (Int × Addr)
  | .registryEraseAll => []
  | .registryInsert clientId conn => (clientId, conn) :: acc
  | _ => acc

/-- The registry inserts among some effects, given in program order, that no `erase_all()`
follows; the latest comes first. -/
def sinceClear (effs : List Effect) : List (Int × Addr) :=
  effs.foldl registryTrack []

/-! ## Invariants of the runs -/

/-- What a state and the effects of the run that led to it satisfy together: every entry
of the registry was inserted after the last `erase_all()`; a `Shutdown` that has passed
line 91 has executed `erase_all()`; one that has passed line 93 has called
`io_service_.stop()`. -/
def TraceInv (x : Sys) (effs : List Effect) : Prop :=
  (∀ p ∈ x.srv.clientDataMgr_.entries, p ∈ sinceClear effs)
  ∧ (∀ pc, x.shutdownPc = some pc → pc = .stopIo ∨ pc = .waitStopped →
      Effect.registryEraseAll ∈ effs)
  ∧ (x.shutdownPc = some .waitStopped →
      Effect.ioStop ∈ effs ∧ x.srv.ioStopRequested = true)

/-- What the accept loop maintains, `k` being the number of ids inserted into the registry
so far: the id counter is the number of `ClientData` objects created, the object at address
`i` carries id `i`, and the object bound to the outstanding accept is the one with id `k`,
the last one created. -/
def AcceptInv (x : Sys) (k : Nat) : Prop :=
  x.srv.nextClientId_ = (x.srv.heap.length : Int)
  ∧ (∀ (i : Nat) (cd : ClientData), x.srv.heap[i]? = some cd → cd.clientId_ = (i : Int))
  ∧ (∀ a, x.srv.pendingAccept = some a → a = k ∧ k + 1 = x.srv.heap.length)
  ∧ (x.runPc = .notStarted → x.srv.heap = [] ∧ x.srv.pendingAccept = none ∧ k = 0)

/-- The program counters of `Shutdown` between its first line and its return. -/
def TcpRpcServer.ShutdownPc.past : TcpRpcServer.ShutdownPc → Bool
  | .entry => false
  | .returned => false
  | _ => true

/-- What every reachable state satisfies: `io_service_stopped_` is false only while `Run` is
inside the event loop; the acceptor exists once `Run` has started; a `Shutdown` that has
passed its first line runs against a started server; once it has passed lines 81 to 85 the
acceptor is closed. -/
def ShutdownInv (x : Sys) : Prop :=
  (x.srv.io_service_stopped_ = false → x.runPc = .looping)
  ∧ (x.runPc ≠ .notStarted → x.srv.acceptor_ ≠ none)
  ∧ (∀ pc, x.shutdownPc = some pc → pc.past = true →
      x.runPc = .looping ∨ x.runPc = .returned)
  ∧ (∀ pc, x.shutdownPc = some pc →
      pc = .waitRequests ∨ pc = .eraseAll ∨ pc = .stopIo ∨ pc = .waitStopped →
      x.srv.acceptor_ = some false)

/-- The members no completion handler and no call of `sendResponse` changes. -/
def SameCore (s s1 : TcpRpcServer) : Prop :=
  s1.acceptor_ = s.acceptor_ ∧ s1.io_service_stopped_ = s.io_service_stopped_
  ∧ s1.ioStopRequested = s.ioStopRequested ∧ s1.processingRequests = s.processingRequests
  ∧ s1.stop_ = s.stop_

/-- The members the accept loop alone changes, and the id of every object. -/
def SameIds (s s1 : TcpRpcServer) : Prop :=
  s1.nextClientId_ = s.nextClientId_ ∧ s1.heap.length = s.heap.length
  ∧ (∀ (i : Nat) (cd : ClientData), s1.heap[i]? = some cd →
      ∃ cd0, s.heap[i]? = some cd0 ∧ cd.clientId_ = cd0.clientId_)
  ∧ s1.pendingAccept = s.pendingAccept

/-- The events that are a completion handler, a call of `sendResponse`, or an assignment
made outside this file: neither a statement of `Run` nor one of `Shutdown`. -/
def Event.quiet : Event → Bool
  | .runBind => false
  | .runMarkStarted => false
  | .runLoopExit => false
  | .shutdownCall => false
  | .shutdownStep => false
  | _ => true

/-- The effects only `Shutdown` causes. -/
def Effect.isTeardown : Effect → Bool
  | .registryEraseAll => true
  | .ioStop => true
  | _ => false

/-- The program counters of `Shutdown` before line 91. -/
def TcpRpcServer.ShutdownPc.beforeErase : TcpRpcServer.ShutdownPc → Bool
  | .entry => true
  | .closeAcceptor => true
  | .waitRequests => true
  | .returned => true
  | _ => false

/-! ## Lemmas on the registry -/

namespace ThreadSafeMap

theorem filter_cons_drop (l : List (Int × Addr)) (key : Int) (v : Addr) :
    ((key, v) :: l).filter (fun e => e.1 != key) = l.filter (fun e => e.1 != key) := by
  rw [List.filter_cons]; simp

theorem filter_cons_keep (l : List (Int × Addr)) (key k : Int) (v : Addr) (h : k ≠ key) :
    ((k, v) :: l).filter (fun e => e.1 != key) = (k, v) :: l.filter (fun e => e.1 != key) := by
  rw [List.filter_cons]; simp [h]

theorem lookup_filter_self (l : List (Int × Addr)) (key : Int) :
    (l.filter (fun e => e.1 != key)).lookup key = none := by
  induction l with
  | nil => rfl
  | cons e l ih =>
    obtain ⟨k, v⟩ := e
    by_cases hk : k = key
    · subst hk
      rw [filter_cons_drop]
      exact ih
    · have h1 : (key == k) = false := by simpa using fun h => hk h.symm
      rw [filter_cons_keep l key k v hk, List.lookup, h1]
      exact ih

theorem lookup_filter_ne (l : List (Int × Addr)) (key k2 : Int) (h : k2 ≠ key) :
    (l.filter (fun e => e.1 != key)).lookup k2 = l.lookup k2 := by
  induction l with
  | nil => rfl
  | cons e l ih =>
    obtain ⟨k, v⟩ := e
    by_cases hk : k = key
    · subst hk
      have h1 : (k2 == k) = false := by simpa using h
      rw [filter_cons_drop, List.lookup, h1]
      exact ih
    · rw [filter_cons_keep l key k v hk]
      by_cases hk2 : k2 = k
      · have h1 : (k2 == k) = true := by simpa using hk2
        rw [List.lookup, h1, List.lookup, h1]
      · have h1 : (k2 == k) = false := by simpa using hk2
        rw [List.lookup, h1, List.lookup, h1]
        exact ih

theorem get_erase_self (m : ThreadSafeMap) (key : Int) : (m.erase key).get key = none :=
  lookup_filter_self m.entries key

theorem get_erase_ne (m : ThreadSafeMap) (key k2 : Int) (h : k2 ≠ key) :
    (m.erase key).get k2 = m.get k2 :=
  lookup_filter_ne m.entries key k2 h

theorem get_insert_self (m : ThreadSafeMap) (key : Int) (v : Addr) :
    (m.insert key v).get key = some v := by
  simp [insert, get, List.lookup]

end ThreadSafeMap

/-! ## The read-completion handler -/

open TcpRpcServer

theorem clientDataReceived_ec (codec : RpcMessage) (hook : Hook) (fuel : Nat)
    (s : TcpRpcServer) (chunk : Bytes) (conn : Addr) (cd : ClientData)
    (hcd : s.heap[conn]? = some cd) :
    clientDataReceived codec hook fuel s true chunk conn =
      some ({ s with clientDataMgr_ := s.clientDataMgr_.erase cd.clientId_ },
            [Effect.registryErase cd.clientId_]) := by
  simp [clientDataReceived, hcd]

theorem clientDataReceived_ok (codec : RpcMessage) (hook : Hook) (fuel : Nat)
    (s : TcpRpcServer) (chunk : Bytes) (conn : Addr) (cd cd2 : ClientData)
    (effs : List Effect) (hcd : s.heap[conn]? = some cd)
    (hloop : extractLoop codec hook fuel { cd with receivedMsg_ := cd.receivedMsg_ ++ chunk }
      = some (cd2, effs, true)) :
    clientDataReceived codec hook fuel s false chunk conn =
      some ({ s with heap := s.heap.set conn cd2, pendingReads := s.pendingReads ++ [conn] },
            effs ++ [Effect.asyncRead conn]) := by
  simp [clientDataReceived, hcd, hloop, startRead]

theorem clientDataReceived_thrown (codec : RpcMessage) (hook : Hook) (fuel : Nat)
    (s : TcpRpcServer) (chunk : Bytes) (conn : Addr) (cd cd2 : ClientData)
    (effs : List Effect) (hcd : s.heap[conn]? = some cd)
    (hloop : extractLoop codec hook fuel { cd with receivedMsg_ := cd.receivedMsg_ ++ chunk }
      = some (cd2, effs, false)) :
    clientDataReceived codec hook fuel s false chunk conn =
      some ({ s with heap := s.heap.set conn cd2 }, effs) := by
  simp [clientDataReceived, hcd, hloop]

/-- What the `catch( ... )` on lines 188 and 189 does.  One read delivers two frames and the
hook throws on the first: the call ends after that one dispatch, the second frame stays in
the accumulated buffer and no read is issued. -/
theorem clientDataReceived_hook_throws :
    clientDataReceived sampleCodec throwingHook 3 sampleServer false [2, 7, 8, 1, 9] 0 =
      some ({ sampleServer with
                heap := [{ clientId_ := 0, sockOpen := true, receivedMsg_ := [1, 9] },
                         ClientData.new 1] },
            [Effect.messageReceived 0 [7, 8]]) := by
  decide

/-- Claim C5.  When a read completes with an error, `clientDataReceived` erases the
connection's id from the registry and returns: the id is absent afterwards, every other
key maps to what it mapped to, the only effect is that erase (no read is issued, the
hook is not called), and nothing but the registry changes, the accumulated buffer of
the connection included. -/
theorem clientDataReceived_read_error (codec : RpcMessage) (hook : Hook) (fuel : Nat)
    (s : TcpRpcServer) (chunk : Bytes) (conn : Addr) (cd : ClientData)
    (hcd : s.heap[conn]? = some cd) :
    ∃ s1, clientDataReceived codec hook fuel s true chunk conn
        = some (s1, [Effect.registryErase cd.clientId_])
      ∧ s1.clientDataMgr_.get cd.clientId_ = none
      ∧ (∀ k, k ≠ cd.clientId_ → s1.clientDataMgr_.get k = s.clientDataMgr_.get k)
      ∧ s1 = { s with clientDataMgr_ := s1.clientDataMgr_ }
      ∧ s1.heap[conn]? = some cd
      ∧ s1.pendingReads = s.pendingReads := by
  refine ⟨_, clientDataReceived_ec codec hook fuel s chunk conn cd hcd, ?_, ?_, rfl, hcd, rfl⟩
  · exact ThreadSafeMap.get_erase_self _ _
  · intro k hk
    exact ThreadSafeMap.get_erase_ne _ _ _ hk

theorem clientDataReceived_read_error_witness :
    ∃ s1, clientDataReceived sampleCodec sampleHook 4 sampleServer true [1, 7] 0
        = some (s1, [Effect.registryErase 0])
      ∧ s1.clientDataMgr_.get 0 = none
      ∧ (∀ k, k ≠ (0 : Int) → s1.clientDataMgr_.get k = sampleServer.clientDataMgr_.get k)
      ∧ s1 = { sampleServer with clientDataMgr_ := s1.clientDataMgr_ }
      ∧ s1.heap[0]? = some { clientId_ := 0, sockOpen := true, receivedMsg_ := [] }
      ∧ s1.pendingReads = sampleServer.pendingReads :=
  clientDataReceived_read_error sampleCodec sampleHook 4 sampleServer [1, 7] 0
    { clientId_ := 0, sockOpen := true, receivedMsg_ := [] } rfl

/-- Claim C6.  `sendResponse` is total.  For an id that is not a key of the registry it
issues no effect and returns the server unchanged; this is the case in particular for the
id of a connection just erased by a read error.  For an id the registry maps to `conn` it
issues exactly one write, of `serializeNetPacket( msg )`, on `conn`, and changes nothing
but the list of outstanding writes. -/
theorem sendResponse_registry (codec : RpcMessage) (s : TcpRpcServer) (clientId : Int)
    (msg : Bytes) :
    (s.clientDataMgr_.get clientId = none → sendResponse codec s clientId msg = (s, []))
    ∧ (∀ hook fuel chunk conn cd s1 effs, s.heap[conn]? = some cd → cd.clientId_ = clientId →
        clientDataReceived codec hook fuel s true chunk conn = some (s1, effs) →
        sendResponse codec s1 clientId msg = (s1, []))
    ∧ (∀ conn, s.clientDataMgr_.get clientId = some conn →
        sendResponse codec s clientId msg =
          ({ s with pendingWrites := s.pendingWrites ++ [(conn, codec.serializeNetPacket msg)] },
           [Effect.asyncWrite conn (codec.serializeNetPacket msg)])) := by
  refine ⟨?_, ?_, ?_⟩
  · intro h
    simp [sendResponse, h]
  · intro hook fuel chunk conn cd s1 effs hcd hid hrun
    rw [clientDataReceived_ec codec hook fuel s chunk conn cd hcd] at hrun
    have hs1 : s1 = { s with clientDataMgr_ := s.clientDataMgr_.erase cd.clientId_ } := by
      simpa using (congrArg (fun r => r.map Prod.fst) hrun).symm
    have hget : s1.clientDataMgr_.get clientId = none := by
      rw [hs1, ← hid]
      exact ThreadSafeMap.get_erase_self _ _
    simp [sendResponse, hget]
  · intro conn h
    simp [sendResponse, h]

theorem sendResponse_registry_witness :
    sendResponse sampleCodec sampleServer 7 [5] = (sampleServer, [])
    ∧ sendResponse sampleCodec sampleServer 0 [5] =
        ({ sampleServer with pendingWrites := [(0, [1, 5])] }, [Effect.asyncWrite 0 [1, 5]]) :=
  ⟨(sendResponse_registry sampleCodec sampleServer 7 [5]).1 rfl,
   (sendResponse_registry sampleCodec sampleServer 0 [5]).2.2 0 rfl⟩

/-- Claim C10.  A connection has an empty accumulated buffer and one successful read
delivers a chunk from which the codec extracts the packet `f1`, then the packet `f2`, and
after which nothing is left; the hook returns on both.  Then, for any bound of three
iterations or more, `clientDataReceived` returns, its effects are
`messageReceived( id, f1 )`, `messageReceived( id, f2 )` and one `async_read` on the
connection, in this order, and the accumulated buffer is empty afterwards. -/
theorem clientDataReceived_two_frames (codec : RpcMessage) (hook : Hook) (s : TcpRpcServer)
    (conn : Addr) (cd : ClientData) (chunk f1 f2 r1 : Bytes) (fuel : Nat)
    (hcd : s.heap[conn]? = some cd) (hempty : cd.receivedMsg_ = [])
    (h1 : codec.extractNetPacket chunk = .packet f1 r1)
    (h2 : codec.extractNetPacket r1 = .packet f2 [])
    (h3 : codec.extractNetPacket [] = .incomplete [])
    (hret1 : hook cd.clientId_ f1 = true) (hret2 : hook cd.clientId_ f2 = true)
    (hfuel : 3 ≤ fuel) :
    ∃ s1, clientDataReceived codec hook fuel s false chunk conn =
        some (s1, [Effect.messageReceived cd.clientId_ f1,
                   Effect.messageReceived cd.clientId_ f2,
                   Effect.asyncRead conn])
      ∧ s1.heap[conn]? = some cd
      ∧ (s1.heap[conn]?.map fun c => c.receivedMsg_) = some []
      ∧ s1.pendingReads = s.pendingReads ++ [conn]
      ∧ s1.clientDataMgr_ = s.clientDataMgr_ := by
  obtain ⟨n, rfl⟩ : ∃ n, fuel = n + 3 := ⟨fuel - 3, by omega⟩
  have hlt : conn < s.heap.length := (List.getElem?_eq_some_iff.mp hcd).1
  have hloop : extractLoop codec hook (n + 3)
      { cd with receivedMsg_ := cd.receivedMsg_ ++ chunk }
      = some (cd, [Effect.messageReceived cd.clientId_ f1,
                   Effect.messageReceived cd.clientId_ f2], true) := by
    obtain ⟨id, so, buf⟩ := cd
    simp only at hempty hret1 hret2
    subst hempty
    simp [extractLoop, ClientData.extractMessage, h1, h2, h3, hret1, hret2]
  refine ⟨_, clientDataReceived_ok codec hook _ s chunk conn cd cd _ hcd hloop, ?_, ?_, rfl, rfl⟩
  · simp [List.getElem?_set, hlt]
  · simp [List.getElem?_set, hlt, hempty]

theorem clientDataReceived_two_frames_witness :
    ∃ s1, clientDataReceived sampleCodec sampleHook 3 sampleServer false [2, 7, 8, 1, 9] 0 =
        some (s1, [Effect.messageReceived 0 [7, 8], Effect.messageReceived 0 [9],
                   Effect.asyncRead 0])
      ∧ s1.heap[0]? = some { clientId_ := 0, sockOpen := true, receivedMsg_ := [] }
      ∧ (s1.heap[0]?.map fun c => c.receivedMsg_) = some []
      ∧ s1.pendingReads = sampleServer.pendingReads ++ [0]
      ∧ s1.clientDataMgr_ = sampleServer.clientDataMgr_ :=
  clientDataReceived_two_frames sampleCodec sampleHook sampleServer 0
    { clientId_ := 0, sockOpen := true, receivedMsg_ := [] } [2, 7, 8, 1, 9] [7, 8] [9] [1, 9] 3
    rfl rfl (by decide) (by decide) (by decide) rfl rfl (by decide)

/-! ## The accept loop -/

theorem connAccepted_refused (s : TcpRpcServer) (conn : Addr) (ec : Bool)
    (h : ec = true ∨ s.stop_ = true) : connAccepted s conn ec = some (s, []) := by
  rcases h with h | h <;> simp [connAccepted, h]

theorem connAccepted_registered (s : TcpRpcServer) (conn : Addr) (cd : ClientData)
    (r : TcpRpcServer × List Effect) (hstop : s.stop_ = false) (hcd : s.heap[conn]? = some cd)
    (h : connAccepted s conn false = some r) :
    r.2 = [Effect.registryInsert cd.clientId_ conn, Effect.asyncRead conn,
           Effect.asyncAccept s.heap.length]
    ∧ r.1 = { s with
                clientDataMgr_ := s.clientDataMgr_.insert cd.clientId_ conn
                pendingReads := s.pendingReads ++ [conn]
                heap := s.heap ++ [ClientData.new s.nextClientId_]
                nextClientId_ := s.nextClientId_ + 1
                pendingAccept := some s.heap.length }
    ∧ s.nextClientId_ < INT_MAX ∧ s.acceptor_ ≠ none := by
  simp only [connAccepted, hstop, hcd, startRead, startAccept, Bool.or_self,
    Bool.false_eq_true, if_false] at h
  split at h
  · cases h
  · rename_i r3 hr3
    split at hr3
    · cases hr3
    · rename_i b hb
      split at hr3
      · rename_i hlt
        simp only [Option.some.injEq] at hr3 h
        subst hr3
        subst h
        simp [hlt, hb, hstop]
      · cases hr3

/-- Claim C3, as the code has it.  An accept completion that reports an error, or one that
finds `stop_` set, registers nothing and starts no accept: no accept is outstanding
afterwards, so no later accept completion can occur.  A completion without error, with
`stop_` clear, registers the connection under its id, starts its read and starts the next
accept, which is outstanding afterwards. -/
theorem acceptDone_rearms_on_success_only (codec : RpcMessage) (hook : Hook) (x x1 : Sys) (ok : Bool)
    (effs : List Effect) (h : x.step codec hook (.acceptDone ok) = some (x1, effs)) :
    ((ok = false ∨ x.srv.stop_ = true) →
        effs = [] ∧ x1.srv.pendingAccept = none
        ∧ x1.srv.clientDataMgr_ = x.srv.clientDataMgr_
        ∧ ∀ ok2, x1.step codec hook (.acceptDone ok2) = none)
    ∧ (ok = true → x.srv.stop_ = false →
        ∃ conn cd, x.srv.pendingAccept = some conn ∧ x.srv.heap[conn]? = some cd
          ∧ effs = [Effect.registryInsert cd.clientId_ conn, Effect.asyncRead conn,
                    Effect.asyncAccept x.srv.heap.length]
          ∧ x1.srv.pendingAccept = some x.srv.heap.length
          ∧ x1.srv.clientDataMgr_.get cd.clientId_ = some conn
          ∧ conn ∈ x1.srv.pendingReads) := by
  simp only [Sys.step] at h
  split at h
  · cases h
  · rename_i conn hp
    split at h
    · cases h
    · rename_i cd hcd
      split at h
      · rename_i hguard
        split at h
        · rename_i r hr
          simp only [Option.some.injEq, Prod.mk.injEq] at h
          obtain ⟨hx1, heffs⟩ := h
          subst hx1 heffs
          have hlt : conn < x.srv.heap.length := (List.getElem?_eq_some_iff.mp hcd).1
          refine ⟨?_, ?_⟩
          · intro hno
            have hec : (!ok) = true ∨ (completeAccept x.srv conn cd ok).stop_ = true := by
              rcases hno with h1 | h1
              · left; simp [h1]
              · right; exact h1
            rw [connAccepted_refused (completeAccept x.srv conn cd ok) conn (!ok) hec] at hr
            simp only [Option.some.injEq] at hr
            subst hr
            refine ⟨rfl, rfl, rfl, ?_⟩
            intro ok2
            simp [Sys.step, completeAccept]
          · intro hok hstop
            subst hok
            have hcd2 : (completeAccept x.srv conn cd true).heap[conn]?
                = some { cd with sockOpen := true } := by
              simp [completeAccept, List.getElem?_set, hlt]
            have hreg := connAccepted_registered (completeAccept x.srv conn cd true) conn _ r
              hstop hcd2 hr
            obtain ⟨he, hs, -, -⟩ := hreg
            refine ⟨conn, cd, hp, hcd, ?_, ?_, ?_, ?_⟩
            · simpa [completeAccept] using he
            · rw [hs]; simp [completeAccept]
            · rw [hs]; exact ThreadSafeMap.get_insert_self _ _ _
            · rw [hs]; simp [completeAccept]
        · cases h
      · cases h

theorem acceptDone_rearms_on_success_only_witness :
    (Sys.mk sampleServer .looping none).step sampleCodec sampleHook (.acceptDone false)
      = some (Sys.mk { sampleServer with pendingAccept := none } .looping none, [])
    ∧ ∀ ok2, (Sys.mk { sampleServer with pendingAccept := none } .looping none).step
        sampleCodec sampleHook (.acceptDone ok2) = none :=
  ⟨by decide,
   ((acceptDone_rearms_on_success_only sampleCodec sampleHook (Sys.mk sampleServer .looping none)
      (Sys.mk { sampleServer with pendingAccept := none } .looping none) false []
      (by decide)).1 (Or.inl rfl)).2.2.2⟩

/-- Claim C3 fails on the code.  A server is started and its first accept completes with
an error while the listener is open: no accept is outstanding afterwards, and a successful
accept completion is not a possible next event. -/
theorem accept_error_not_rearmed :
    (Sys.run sampleCodec sampleHook [.runBind, .runMarkStarted, .acceptDone false] (Sys.init false 0)).map
        (fun r => (r.1.runPc, r.1.srv.acceptor_, r.1.srv.pendingAccept, r.2))
      = some (RunPc.looping, some true, none, [Effect.asyncAccept 0])
    ∧ Sys.run sampleCodec sampleHook [.runBind, .runMarkStarted, .acceptDone false, .acceptDone true]
        (Sys.init false 0) = none := by
  decide

/-! ## Framing errors -/

theorem extractLoop_endsMalformed (codec : RpcMessage) (hook : Hook) :
    ∀ (fuel : Nat) (cd : ClientData),
      endsMalformed codec hook cd.clientId_ fuel cd.receivedMsg_ = true →
      ∃ fs rest, framesOf codec fuel cd.receivedMsg_ = some (fs, rest)
        ∧ extractLoop codec hook fuel cd
            = some ({ cd with receivedMsg_ := rest, sockOpen := false },
                    fs.map (Effect.messageReceived cd.clientId_), true) := by
  intro fuel
  induction fuel with
  | zero => intro cd h; simp [endsMalformed] at h
  | succ n ih =>
    intro cd h
    rw [endsMalformed] at h
    rcases hx : codec.extractNetPacket cd.receivedMsg_ with ⟨msg, rest1⟩ | rest1 | rest1
    · rw [hx] at h
      simp only [Bool.and_eq_true] at h
      obtain ⟨fs, rest, hframes, hloop⟩ := ih { cd with receivedMsg_ := rest1 } h.2
      refine ⟨msg :: fs, rest, ?_, ?_⟩
      · simp only [framesOf, hx]
        simp only at hframes
        rw [hframes]
      · simp [extractLoop, ClientData.extractMessage, hx, h.1, hloop]
    · rw [hx] at h; simp at h
    · exact ⟨[], rest1, by simp [framesOf, hx],
        by simp [extractLoop, ClientData.extractMessage, hx]⟩

/-- Claim C4, as the code has it.  When the extraction loop of a successful read
completion ends because the codec throws, `clientDataReceived` returns with the
connection's socket closed, having called `messageReceived` on exactly the frames the codec
extracted before the error, in order, with the registry unchanged and with one further
read issued on the connection.  The id leaves the registry when a read completion on the
connection reports an error. -/
theorem clientDataReceived_framing_error (codec : RpcMessage) (hook : Hook) (fuel : Nat)
    (s : TcpRpcServer) (chunk : Bytes) (conn : Addr) (cd : ClientData)
    (hcd : s.heap[conn]? = some cd)
    (hbad : endsMalformed codec hook cd.clientId_ fuel (cd.receivedMsg_ ++ chunk) = true) :
    ∃ s1 fs rest, framesOf codec fuel (cd.receivedMsg_ ++ chunk) = some (fs, rest)
      ∧ clientDataReceived codec hook fuel s false chunk conn
        = some (s1, fs.map (Effect.messageReceived cd.clientId_) ++ [Effect.asyncRead conn])
      ∧ s1 = { s with
                 heap := s.heap.set conn { cd with receivedMsg_ := rest, sockOpen := false }
                 pendingReads := s.pendingReads ++ [conn] }
      ∧ s1.heap[conn]? = some { cd with receivedMsg_ := rest, sockOpen := false }
      ∧ s1.clientDataMgr_ = s.clientDataMgr_
      ∧ ∀ fuel2 chunk2, ∃ s2, clientDataReceived codec hook fuel2 s1 true chunk2 conn
          = some (s2, [Effect.registryErase cd.clientId_])
          ∧ s2.clientDataMgr_.get cd.clientId_ = none := by
  obtain ⟨fs, rest, hframes, hloop⟩ :=
    extractLoop_endsMalformed codec hook fuel
      { cd with receivedMsg_ := cd.receivedMsg_ ++ chunk } hbad
  have hlt : conn < s.heap.length := (List.getElem?_eq_some_iff.mp hcd).1
  have hget : (s.heap.set conn { cd with receivedMsg_ := rest, sockOpen := false })[conn]?
      = some { cd with receivedMsg_ := rest, sockOpen := false } := by
    simp [List.getElem?_set, hlt]
  refine ⟨_, fs, rest, hframes,
    clientDataReceived_ok codec hook fuel s chunk conn cd _ _ hcd hloop, rfl, hget, rfl, ?_⟩
  intro fuel2 chunk2
  have herr := clientDataReceived_ec codec hook fuel2
    { s with
        heap := s.heap.set conn { cd with receivedMsg_ := rest, sockOpen := false }
        pendingReads := s.pendingReads ++ [conn] }
    chunk2 conn { cd with receivedMsg_ := rest, sockOpen := false } hget
  exact ⟨_, herr, ThreadSafeMap.get_erase_self _ _⟩

theorem clientDataReceived_framing_error_witness :
    ∃ s1 fs rest, framesOf sampleCodec 4 ([] ++ [1, 7, 255, 3]) = some (fs, rest)
      ∧ clientDataReceived sampleCodec sampleHook 4 sampleServer false [1, 7, 255, 3] 0
        = some (s1, fs.map (Effect.messageReceived 0) ++ [Effect.asyncRead 0])
      ∧ s1 = { sampleServer with
                 heap := sampleServer.heap.set 0
                   { clientId_ := 0, sockOpen := false, receivedMsg_ := rest }
                 pendingReads := sampleServer.pendingReads ++ [0] }
      ∧ s1.heap[0]? = some { clientId_ := 0, sockOpen := false, receivedMsg_ := rest }
      ∧ s1.clientDataMgr_ = sampleServer.clientDataMgr_
      ∧ ∀ fuel2 chunk2, ∃ s2, clientDataReceived sampleCodec sampleHook fuel2 s1 true chunk2 0
          = some (s2, [Effect.registryErase 0])
          ∧ s2.clientDataMgr_.get 0 = none :=
  clientDataReceived_framing_error sampleCodec sampleHook 4 sampleServer [1, 7, 255, 3] 0
    { clientId_ := 0, sockOpen := true, receivedMsg_ := [] } rfl (by decide)

/-- Claim C4 fails on the code.  Connection 0 is registered and a successful read delivers
bytes the sample codec rejects: when `clientDataReceived` returns the socket is closed, but
id 0 is still a key of the registry and a read has been issued on the connection. -/
theorem framing_error_keeps_registration :
    sampleCodec.extractNetPacket [255, 3] = .malformed [255, 3]
    ∧ sampleServer.clientDataMgr_.get 0 = some 0
    ∧ (clientDataReceived sampleCodec sampleHook 4 sampleServer false [255, 3] 0).map
        (fun r => (r.1.heap[0]?.map fun c => c.sockOpen, r.1.clientDataMgr_.get 0, r.2))
      = some (some false, some 0, [Effect.asyncRead 0]) := by
  decide

/-! ## Reassembly of frames across read completions -/

theorem framesOf_succ (codec : RpcMessage) :
    ∀ (n : Nat) (buf : Bytes) (r : List Bytes × Bytes),
      framesOf codec n buf = some r → framesOf codec (n + 1) buf = some r := by
  intro n
  induction n with
  | zero => intro buf r h; simp [framesOf] at h
  | succ n ih =>
    intro buf r h
    rw [framesOf] at h ⊢
    rcases hx : codec.extractNetPacket buf with ⟨msg, rest⟩ | rest | rest
    · rw [hx] at h
      simp only at h ⊢
      rcases hf : framesOf codec n rest with _ | r2
      · rw [hf] at h; cases h
      · rw [hf] at h
        rw [ih rest r2 hf]
        exact h
    · rw [hx] at h; exact h
    · rw [hx] at h; exact h

theorem framesOf_idle (codec : RpcMessage) (hc : SelfDelimiting codec) (n : Nat) (buf : Bytes)
    (hno : ∀ msg rest, codec.extractNetPacket buf ≠ .packet msg rest) :
    framesOf codec (n + 1) buf = some ([], buf) := by
  rw [framesOf]
  rcases hx : codec.extractNetPacket buf with ⟨msg, rest⟩ | rest | rest
  · exact absurd hx (hno msg rest)
  · simp [hc.keepsIncomplete buf rest hx]
  · simp [hc.keepsMalformed buf rest hx]

theorem framesOf_rest (codec : RpcMessage) (hc : SelfDelimiting codec) :
    ∀ (n : Nat) (buf : Bytes) (fs : List Bytes) (rest : Bytes),
      framesOf codec n buf = some (fs, rest) →
      (∀ msg r, codec.extractNetPacket rest ≠ .packet msg r) ∧ rest.length ≤ buf.length := by
  intro n
  induction n with
  | zero => intro buf fs rest h; simp [framesOf] at h
  | succ n ih =>
    intro buf fs rest h
    rw [framesOf] at h
    rcases hx : codec.extractNetPacket buf with ⟨msg, rest1⟩ | rest1 | rest1
    · rw [hx] at h
      simp only at h
      rcases hf : framesOf codec n rest1 with _ | r2
      · rw [hf] at h; cases h
      · rw [hf] at h
        simp only [Option.some.injEq, Prod.mk.injEq] at h
        obtain ⟨-, hr⟩ := h
        have h2 := ih rest1 r2.1 r2.2 hf
        have hlt := hc.consumes buf msg rest1 hx
        rw [hr] at h2
        exact ⟨h2.1, by omega⟩
    · rw [hx] at h
      simp only [Option.some.injEq, Prod.mk.injEq] at h
      obtain ⟨-, hr⟩ := h
      have hb := hc.keepsIncomplete buf rest1 hx
      subst hr; subst hb
      refine ⟨?_, le_refl _⟩
      intro msg r hp
      rw [hx] at hp; cases hp
    · rw [hx] at h
      simp only [Option.some.injEq, Prod.mk.injEq] at h
      obtain ⟨-, hr⟩ := h
      have hb := hc.keepsMalformed buf rest1 hx
      subst hr; subst hb
      refine ⟨?_, le_refl _⟩
      intro msg r hp
      rw [hx] at hp; cases hp

theorem framesOf_total (codec : RpcMessage) (hc : SelfDelimiting codec) :
    ∀ (n : Nat) (buf : Bytes), buf.length < n →
      ∃ fs rest, framesOf codec n buf = some (fs, rest) := by
  intro n
  induction n with
  | zero => intro buf h; omega
  | succ n ih =>
    intro buf h
    rw [framesOf]
    rcases hx : codec.extractNetPacket buf with ⟨msg, rest⟩ | rest | rest
    · have hlt := hc.consumes buf msg rest hx
      obtain ⟨fs, r, hf⟩ := ih rest (by omega)
      exact ⟨msg :: fs, r, by simp [hf]⟩
    · exact ⟨[], rest, rfl⟩
    · exact ⟨[], rest, rfl⟩

theorem framesOf_append (codec : RpcMessage) (hc : SelfDelimiting codec) :
    ∀ (n : Nat) (buf more : Bytes) (f1 : List Bytes) (r1 : Bytes),
      framesOf codec n buf = some (f1, r1) → (buf ++ more).length < n →
      ∃ f2 r2, framesOf codec n (r1 ++ more) = some (f2, r2)
        ∧ framesOf codec n (buf ++ more) = some (f1 ++ f2, r2) := by
  intro n
  induction n with
  | zero => intro buf more f1 r1 h; simp [framesOf] at h
  | succ n ih =>
    intro buf more f1 r1 h hlen
    have hsame : ∀ rest, rest = buf → f1 = [] → r1 = rest →
        ∃ f2 r2, framesOf codec (n + 1) (r1 ++ more) = some (f2, r2)
          ∧ framesOf codec (n + 1) (buf ++ more) = some (f1 ++ f2, r2) := by
      intro rest hb hf hr
      subst hb; subst hf; subst hr
      obtain ⟨f2, r2, h2⟩ := framesOf_total codec hc (n + 1) (r1 ++ more) hlen
      exact ⟨f2, r2, h2, by simpa using h2⟩
    rw [framesOf] at h
    rcases hx : codec.extractNetPacket buf with ⟨msg, rest⟩ | rest | rest
    · rw [hx] at h
      simp only at h
      rcases hf : framesOf codec n rest with _ | r
      · rw [hf] at h; cases h
      · rw [hf] at h
        simp only [Option.some.injEq, Prod.mk.injEq] at h
        obtain ⟨hf1, hr1⟩ := h
        have hlt := hc.consumes buf msg rest hx
        have hlen2 : (rest ++ more).length < n := by
          simp only [List.length_append] at hlen ⊢
          omega
        obtain ⟨f2, r2, h2a, h2b⟩ := ih rest more r.1 r.2 hf hlen2
        refine ⟨f2, r2, ?_, ?_⟩
        · rw [← hr1]
          exact framesOf_succ codec n _ _ h2a
        · rw [framesOf, hc.stable buf msg rest more hx]
          simp [h2b, ← hf1]
    · rw [hx] at h
      simp only [Option.some.injEq, Prod.mk.injEq] at h
      exact hsame rest (hc.keepsIncomplete buf rest hx) h.1.symm h.2.symm
    · rw [hx] at h
      simp only [Option.some.injEq, Prod.mk.injEq] at h
      exact hsame rest (hc.keepsMalformed buf rest hx) h.1.symm h.2.symm

theorem extractLoop_framesOf (codec : RpcMessage) (hook : Hook) :
    ∀ (fuel : Nat) (cd : ClientData) (fs : List Bytes) (rest : Bytes),
      (∀ msg, hook cd.clientId_ msg = true) →
      framesOf codec fuel cd.receivedMsg_ = some (fs, rest) →
      ∃ cd2, extractLoop codec hook fuel cd
          = some (cd2, fs.map (Effect.messageReceived cd.clientId_), true)
        ∧ cd2.receivedMsg_ = rest ∧ cd2.clientId_ = cd.clientId_ := by
  intro fuel
  induction fuel with
  | zero => intro cd fs rest _ h; simp [framesOf] at h
  | succ n ih =>
    intro cd fs rest hret h
    rw [framesOf] at h
    rcases hx : codec.extractNetPacket cd.receivedMsg_ with ⟨msg, rest1⟩ | rest1 | rest1
    · rw [hx] at h
      simp only at h
      rcases hf : framesOf codec n rest1 with _ | r
      · rw [hf] at h; cases h
      · rw [hf] at h
        simp only [Option.some.injEq, Prod.mk.injEq] at h
        obtain ⟨hf1, hr1⟩ := h
        obtain ⟨cd2, hloop, hbuf, hid⟩ :=
          ih { cd with receivedMsg_ := rest1 } r.1 r.2 hret hf
        refine ⟨cd2, ?_, hbuf.trans hr1, hid⟩
        simp [extractLoop, ClientData.extractMessage, hx, hloop, hret msg, ← hf1]
    · rw [hx] at h
      simp only [Option.some.injEq, Prod.mk.injEq] at h
      obtain ⟨hf1, hr1⟩ := h
      exact ⟨{ cd with receivedMsg_ := rest1 },
        by simp [extractLoop, ClientData.extractMessage, hx, ← hf1], hr1, rfl⟩
    · rw [hx] at h
      simp only [Option.some.injEq, Prod.mk.injEq] at h
      obtain ⟨hf1, hr1⟩ := h
      exact ⟨{ cd with receivedMsg_ := rest1, sockOpen := false },
        by simp [extractLoop, ClientData.extractMessage, hx, ← hf1], hr1, rfl⟩

theorem messagesOf_append (a b : List Effect) :
    messagesOf (a ++ b) = messagesOf a ++ messagesOf b := by
  simp [messagesOf, List.filterMap_append]

theorem messagesOf_map (clientId : Int) (fs : List Bytes) :
    messagesOf (fs.map (Effect.messageReceived clientId)) = fs.map (fun m => (clientId, m)) := by
  induction fs with
  | nil => rfl
  | cons f fs ih =>
    simp only [messagesOf, List.map_cons, List.filterMap_cons] at ih ⊢
    rw [ih]

theorem feed_cons (codec : RpcMessage) (hook : Hook) (fuel : Nat) (conn : Addr) (c : Bytes)
    (cs : List Bytes) (s : TcpRpcServer) (r : TcpRpcServer × List Effect)
    (h : clientDataReceived codec hook fuel s false c conn = some r) :
    feed codec hook fuel conn (c :: cs) s =
      (feed codec hook fuel conn cs r.1).map (fun r2 => (r2.1, r.2 ++ r2.2)) := by
  rw [feed, h]
  dsimp only
  rcases hf : feed codec hook fuel conn cs r.1 with _ | r2 <;> simp

theorem feed_append (codec : RpcMessage) (hook : Hook) (fuel : Nat) (conn : Addr) :
    ∀ (l1 l2 : List Bytes) (s s1 : TcpRpcServer) (e1 : List Effect),
      feed codec hook fuel conn l1 s = some (s1, e1) →
      feed codec hook fuel conn (l1 ++ l2) s =
        (feed codec hook fuel conn l2 s1).map (fun r => (r.1, e1 ++ r.2)) := by
  intro l1
  induction l1 with
  | nil =>
    intro l2 s s1 e1 h
    simp only [feed, Option.some.injEq, Prod.mk.injEq] at h
    obtain ⟨rfl, rfl⟩ := h
    rw [List.nil_append]
    rcases feed codec hook fuel conn l2 s with _ | r <;> simp
  | cons c cs ih =>
    intro l2 s s1 e1 h
    rcases hstep : clientDataReceived codec hook fuel s false c conn with _ | r
    · rw [feed, hstep] at h; cases h
    · rw [feed_cons codec hook fuel conn c cs s r hstep] at h
      rw [List.cons_append, feed_cons codec hook fuel conn c (cs ++ l2) s r hstep]
      rcases hrest : feed codec hook fuel conn cs r.1 with _ | r2
      · rw [hrest] at h; cases h
      · rw [hrest] at h
        simp only [Option.map_some', Option.some.injEq, Prod.mk.injEq] at h
        obtain ⟨rfl, rfl⟩ := h
        rw [ih l2 r.1 r2.1 r2.2 hrest]
        rcases feed codec hook fuel conn l2 r2.1 with _ | r3 <;> simp

theorem feed_frames (codec : RpcMessage) (hook : Hook) (hc : SelfDelimiting codec) (fuel : Nat)
    (conn : Addr) :
    ∀ (chunks : List Bytes) (s : TcpRpcServer) (cd : ClientData),
      s.heap[conn]? = some cd →
      (∀ msg, hook cd.clientId_ msg = true) →
      (∀ msg r, codec.extractNetPacket cd.receivedMsg_ ≠ .packet msg r) →
      (cd.receivedMsg_ ++ chunks.flatten).length < fuel →
      ∃ s1 effs fs rest cd1, feed codec hook fuel conn chunks s = some (s1, effs)
        ∧ framesOf codec fuel (cd.receivedMsg_ ++ chunks.flatten) = some (fs, rest)
        ∧ messagesOf effs = fs.map (fun m => (cd.clientId_, m))
        ∧ s1.heap[conn]? = some cd1 ∧ cd1.receivedMsg_ = rest
        ∧ cd1.clientId_ = cd.clientId_ := by
  intro chunks
  induction chunks with
  | nil =>
    intro s cd hcd _ hno hlen
    obtain ⟨n, rfl⟩ : ∃ n, fuel = n + 1 := ⟨fuel - 1, by omega⟩
    refine ⟨s, [], [], cd.receivedMsg_, cd, rfl, ?_, rfl, hcd, rfl, rfl⟩
    simpa using framesOf_idle codec hc n cd.receivedMsg_ hno
  | cons c cs ih =>
    intro s cd hcd hret hno hlen
    have hlen0 : (cd.receivedMsg_ ++ c ++ cs.flatten).length < fuel := by
      simpa [List.append_assoc] using hlen
    have hlen1 : (cd.receivedMsg_ ++ c).length < fuel := by
      simp only [List.length_append] at hlen0 ⊢
      omega
    obtain ⟨f1, r1, hf1⟩ := framesOf_total codec hc fuel (cd.receivedMsg_ ++ c) hlen1
    obtain ⟨hno1, hle1⟩ := framesOf_rest codec hc fuel _ f1 r1 hf1
    obtain ⟨cd2, hloop, hbuf, hid⟩ :=
      extractLoop_framesOf codec hook fuel { cd with receivedMsg_ := cd.receivedMsg_ ++ c }
        f1 r1 hret hf1
    have hstep := clientDataReceived_ok codec hook fuel s c conn cd cd2 _ hcd hloop
    have hlt : conn < s.heap.length := (List.getElem?_eq_some_iff.mp hcd).1
    have hcd2 : ({ s with heap := s.heap.set conn cd2,
                          pendingReads := s.pendingReads ++ [conn] } : TcpRpcServer).heap[conn]?
        = some cd2 := by
      simp [List.getElem?_set, hlt]
    have hlen2 : (cd2.receivedMsg_ ++ cs.flatten).length < fuel := by
      rw [hbuf]
      simp only [List.length_append] at hlen0 hle1 ⊢
      omega
    obtain ⟨s1, e2, f2, r2, cd1, hfeed, hframes2, hmsgs2, hcd1, hbuf1, hid1⟩ :=
      ih _ cd2 hcd2 (by rw [hid]; exact hret) (by rw [hbuf]; exact hno1) hlen2
    obtain ⟨f2b, r2b, h2a, h2b⟩ := framesOf_append codec hc fuel _ cs.flatten f1 r1 hf1 hlen0
    rw [hbuf, h2a] at hframes2
    simp only [Option.some.injEq, Prod.mk.injEq] at hframes2
    obtain ⟨rfl, rfl⟩ := hframes2
    refine ⟨s1, (f1.map (Effect.messageReceived cd.clientId_) ++ [Effect.asyncRead conn]) ++ e2,
      f1 ++ f2b, r2b, cd1, ?_, ?_, ?_, hcd1, hbuf1, hid1.trans hid⟩
    · rw [feed_cons codec hook fuel conn c cs s _ hstep, hfeed]
      rfl
    · simpa [List.append_assoc] using h2b
    · rw [messagesOf_append, messagesOf_append, messagesOf_map, hmsgs2, hid]
      simp [messagesOf]

theorem sampleCodec_selfDelimiting : SelfDelimiting sampleCodec where
  consumes := by
    intro buf msg rest h
    cases buf with
    | nil => simp [sampleCodec, sampleExtract] at h
    | cons n tl =>
      simp only [sampleCodec, sampleExtract] at h
      split at h
      · cases h
      · split at h
        · cases h
        · simp only [Extracted.packet.injEq] at h
          rw [← h.2]
          simp only [List.length_drop, List.length_cons]
          omega
  stable := by
    intro buf msg rest more h
    cases buf with
    | nil => simp [sampleCodec, sampleExtract] at h
    | cons n tl =>
      simp only [sampleCodec, sampleExtract] at h
      split at h
      · cases h
      · rename_i h255
        split at h
        · cases h
        · rename_i hlen
          simp only [Extracted.packet.injEq] at h
          have hle : n.val ≤ tl.length := by omega
          have hnot : ¬ (tl.length + more.length < n.val) := by omega
          simp only [sampleCodec, sampleExtract, List.cons_append, h255, if_false,
            List.length_append, hnot, Extracted.packet.injEq]
          rw [List.take_append_of_le_length hle, List.drop_append_of_le_length hle]
          exact ⟨h.1, by rw [h.2]⟩
  keepsIncomplete := by
    intro buf rest h
    cases buf with
    | nil =>
      simp only [sampleCodec, sampleExtract, Extracted.incomplete.injEq] at h
      exact h.symm
    | cons n tl =>
      simp only [sampleCodec, sampleExtract] at h
      split at h
      · cases h
      · split at h
        · simp only [Extracted.incomplete.injEq] at h
          exact h.symm
        · cases h
  keepsMalformed := by
    intro buf rest h
    cases buf with
    | nil => simp [sampleCodec, sampleExtract] at h
    | cons n tl =>
      simp only [sampleCodec, sampleExtract] at h
      split at h
      · simp only [Extracted.malformed.injEq] at h
        exact h.symm
      · split at h <;> cases h

/-- Claim C1.  The codec is self-delimiting, the hook returns on every message of the
connection, the connection has an empty accumulated buffer, and a byte stream reaches it cut
into chunks in any way, one successful read completion per chunk.  Then every completion
returns, the `messageReceived` calls made over all the
completions are exactly the frames the codec extracts from the whole stream, in stream
order, each once, and the accumulated buffer ends as the bytes the codec leaves over, which
hold no complete frame.  After any number `k` of the completions the calls made so far are
exactly the frames of the bytes arrived so far, and they are the first calls of the whole
run: no frame is delivered before its last byte has arrived.  The chunks need not be
non-empty. -/
theorem clientDataReceived_chunking (codec : RpcMessage) (hook : Hook)
    (hc : SelfDelimiting codec) (s : TcpRpcServer) (conn : Addr) (cd : ClientData)
    (hcd : s.heap[conn]? = some cd) (hret : ∀ msg, hook cd.clientId_ msg = true)
    (hempty : cd.receivedMsg_ = []) (chunks : List Bytes) (fuel : Nat)
    (hfuel : chunks.flatten.length < fuel) :
    ∃ s1 effs fs rest, feed codec hook fuel conn chunks s = some (s1, effs)
      ∧ framesOf codec fuel chunks.flatten = some (fs, rest)
      ∧ messagesOf effs = fs.map (fun m => (cd.clientId_, m))
      ∧ (s1.heap[conn]?.map fun c => c.receivedMsg_) = some rest
      ∧ (∀ msg r, codec.extractNetPacket rest ≠ .packet msg r)
      ∧ ∀ k, ∃ sk ek fk rk, feed codec hook fuel conn (chunks.take k) s = some (sk, ek)
          ∧ framesOf codec fuel (chunks.take k).flatten = some (fk, rk)
          ∧ messagesOf ek = fk.map (fun m => (cd.clientId_, m))
          ∧ ek <+: effs := by
  have hno : ∀ msg r, codec.extractNetPacket cd.receivedMsg_ ≠ .packet msg r := by
    intro msg r h
    have := hc.consumes _ msg r h
    rw [hempty] at this
    simp at this
  have hmain : ∀ l : List Bytes, l.flatten.length < fuel →
      ∃ s1 effs fs rest cd1, feed codec hook fuel conn l s = some (s1, effs)
        ∧ framesOf codec fuel l.flatten = some (fs, rest)
        ∧ messagesOf effs = fs.map (fun m => (cd.clientId_, m))
        ∧ s1.heap[conn]? = some cd1 ∧ cd1.receivedMsg_ = rest := by
    intro l hl
    obtain ⟨s1, effs, fs, rest, cd1, h1, h2, h3, h4, h5, -⟩ :=
      feed_frames codec hook hc fuel conn l s cd hcd hret hno (by rw [hempty]; simpa using hl)
    rw [hempty] at h2
    exact ⟨s1, effs, fs, rest, cd1, h1, by simpa using h2, h3, h4, h5⟩
  obtain ⟨s1, effs, fs, rest, cd1, h1, h2, h3, h4, h5⟩ := hmain chunks hfuel
  refine ⟨s1, effs, fs, rest, h1, h2, h3, by simp [h4, h5],
    (framesOf_rest codec hc fuel _ fs rest h2).1, ?_⟩
  intro k
  have hk : (chunks.take k).flatten.length ≤ chunks.flatten.length := by
    conv_rhs => rw [← List.take_append_drop k chunks]
    rw [List.flatten_append, List.length_append]
    omega
  obtain ⟨sk, ek, fk, rk, -, hk1, hk2, hk3, -, -⟩ := hmain (chunks.take k) (by omega)
  refine ⟨sk, ek, fk, rk, hk1, hk2, hk3, ?_⟩
  have happ := feed_append codec hook fuel conn (chunks.take k) (chunks.drop k) s sk ek hk1
  rw [List.take_append_drop, h1] at happ
  rcases hd : feed codec hook fuel conn (chunks.drop k) sk with _ | r
  · rw [hd] at happ; simp at happ
  · rw [hd] at happ
    simp only [Option.map_some', Option.some.injEq, Prod.mk.injEq] at happ
    exact ⟨r.2, happ.2.symm⟩

theorem clientDataReceived_chunking_witness :
    ∃ s1 effs fs rest, feed sampleCodec sampleHook 7 0 [[2, 7], [8, 1], [9, 3]] sampleServer
        = some (s1, effs)
      ∧ framesOf sampleCodec 7 [[2, 7], [8, 1], [9, 3]].flatten = some (fs, rest)
      ∧ messagesOf effs = fs.map (fun m => ((0 : Int), m))
      ∧ (s1.heap[0]?.map fun c => c.receivedMsg_) = some rest
      ∧ (∀ msg r, sampleCodec.extractNetPacket rest ≠ .packet msg r)
      ∧ ∀ k, ∃ sk ek fk rk,
          feed sampleCodec sampleHook 7 0 (([[2, 7], [8, 1], [9, 3]] : List Bytes).take k)
              sampleServer
            = some (sk, ek)
          ∧ framesOf sampleCodec 7 (([[2, 7], [8, 1], [9, 3]] : List Bytes).take k).flatten
            = some (fk, rk)
          ∧ messagesOf ek = fk.map (fun m => ((0 : Int), m))
          ∧ ek <+: effs :=
  clientDataReceived_chunking sampleCodec sampleHook sampleCodec_selfDelimiting sampleServer 0
    { clientId_ := 0, sockOpen := true, receivedMsg_ := [] } rfl (fun _ => rfl) rfl
    [[2, 7], [8, 1], [9, 3]] 7 (by decide)

/-! ## What each operation leaves alone -/

theorem sameIds_refl (s : TcpRpcServer) : SameIds s s :=
  ⟨rfl, rfl, fun _ cd h => ⟨cd, h, rfl⟩, rfl⟩

theorem sameCore_refl (s : TcpRpcServer) : SameCore s s := ⟨rfl, rfl, rfl, rfl, rfl⟩

theorem heap_set_ids (heap : List ClientData) (conn : Addr) (cd cd2 : ClientData)
    (hcd : heap[conn]? = some cd) (hid : cd2.clientId_ = cd.clientId_) :
    ∀ (i : Nat) (c : ClientData), (heap.set conn cd2)[i]? = some c →
      ∃ c0, heap[i]? = some c0 ∧ c.clientId_ = c0.clientId_ := by
  intro i c h
  by_cases hi : conn = i
  · subst hi
    have hlt : conn < heap.length := (List.getElem?_eq_some_iff.mp hcd).1
    simp only [List.getElem?_set, hlt, if_true] at h
    simp only [Option.some.injEq] at h
    subst h
    exact ⟨cd, hcd, hid⟩
  · rw [List.getElem?_set_ne hi] at h
    exact ⟨c, h, rfl⟩

theorem insertedIds_append (a b : List Effect) :
    insertedIds (a ++ b) = insertedIds a ++ insertedIds b := by
  simp [insertedIds, List.filterMap_append]

theorem extractLoop_frame (codec : RpcMessage) (hook : Hook) :
    ∀ (fuel : Nat) (cd cd2 : ClientData) (effs : List Effect) (done : Bool),
      extractLoop codec hook fuel cd = some (cd2, effs, done) →
      cd2.clientId_ = cd.clientId_
        ∧ ∀ e ∈ effs, ∃ msg, e = Effect.messageReceived cd.clientId_ msg := by
  intro fuel
  induction fuel with
  | zero => intro cd cd2 effs done h; simp [extractLoop] at h
  | succ n ih =>
    intro cd cd2 effs done h
    rw [extractLoop] at h
    rcases hx : codec.extractNetPacket cd.receivedMsg_ with ⟨msg, rest⟩ | rest | rest
    · simp only [ClientData.extractMessage, hx] at h
      cases hh : hook cd.clientId_ msg
      · simp only [hh, Bool.false_eq_true, if_false, Option.some.injEq, Prod.mk.injEq] at h
        obtain ⟨h1, h2, -⟩ := h
        subst h1 h2
        refine ⟨rfl, ?_⟩
        intro e he
        simp only [List.mem_singleton] at he
        exact ⟨msg, he⟩
      · simp only [hh, if_true] at h
        rcases hl : extractLoop codec hook n { cd with receivedMsg_ := rest } with _ | r
        · rw [hl] at h; cases h
        · rw [hl] at h
          simp only [Option.some.injEq, Prod.mk.injEq] at h
          obtain ⟨h1, h2, -⟩ := h
          obtain ⟨hid, hall⟩ := ih _ r.1 r.2.1 r.2.2 hl
          subst h1 h2
          refine ⟨hid, ?_⟩
          intro e he
          rcases List.mem_cons.mp he with rfl | he
          · exact ⟨msg, rfl⟩
          · exact hall e he
    · simp only [ClientData.extractMessage, hx, Option.some.injEq, Prod.mk.injEq] at h
      obtain ⟨h1, h2, -⟩ := h
      subst h1 h2
      exact ⟨rfl, by simp⟩
    · simp only [ClientData.extractMessage, hx, Option.some.injEq, Prod.mk.injEq] at h
      obtain ⟨h1, h2, -⟩ := h
      subst h1 h2
      exact ⟨rfl, by simp⟩

theorem registryTrack_neutral (effs : List Effect)
    (h : ∀ e ∈ effs, ∀ acc, registryTrack acc e = acc) (acc : List (Int × Addr)) :
    effs.foldl registryTrack acc = acc := by
  induction effs generalizing acc with
  | nil => rfl
  | cons e es ih =>
    rw [List.foldl_cons, h e (List.mem_cons_self _ _) acc]
    exact ih (fun e2 he2 => h e2 (List.mem_cons_of_mem _ he2)) acc

theorem clientDataReceived_frame (codec : RpcMessage) (hook : Hook) (fuel : Nat)
    (s : TcpRpcServer) (ec : Bool) (chunk : Bytes) (conn : Addr)
    (r : TcpRpcServer × List Effect)
    (h : clientDataReceived codec hook fuel s ec chunk conn = some r) :
    SameCore s r.1 ∧ SameIds s r.1
      ∧ (r.1.clientDataMgr_ = s.clientDataMgr_
          ∨ ∃ key, r.1.clientDataMgr_ = s.clientDataMgr_.erase key)
      ∧ insertedIds r.2 = [] ∧ (∀ e ∈ r.2, e.isTeardown = false)
      ∧ ∀ acc, r.2.foldl registryTrack acc = acc := by
  rcases hcd : s.heap[conn]? with _ | cd
  · simp [clientDataReceived, hcd] at h
  · cases ec with
    | true =>
      rw [clientDataReceived_ec codec hook fuel s chunk conn cd hcd] at h
      simp only [Option.some.injEq] at h
      subst h
      exact ⟨sameCore_refl s, sameIds_refl s, Or.inr ⟨_, rfl⟩, rfl, by simp [Effect.isTeardown],
        fun _ => rfl⟩
    | false =>
      rcases hl : extractLoop codec hook fuel
          { cd with receivedMsg_ := cd.receivedMsg_ ++ chunk } with _ | r2
      · simp [clientDataReceived, hcd, hl] at h
      · obtain ⟨cd2, effs, done⟩ := r2
        obtain ⟨hid, hall⟩ := extractLoop_frame codec hook fuel _ cd2 effs done hl
        have hins : insertedIds effs = [] := by
          simp only [insertedIds]
          rw [List.filterMap_eq_nil_iff]
          intro e he
          obtain ⟨msg, rfl⟩ := hall e he
          rfl
        have htd : ∀ e ∈ effs, e.isTeardown = false := by
          intro e he
          obtain ⟨msg, rfl⟩ := hall e he
          rfl
        have htr : ∀ acc, effs.foldl registryTrack acc = acc := by
          intro acc
          apply registryTrack_neutral
          intro e he acc2
          obtain ⟨msg, rfl⟩ := hall e he
          rfl
        cases done with
        | true =>
          rw [clientDataReceived_ok codec hook fuel s chunk conn cd cd2 effs hcd hl] at h
          simp only [Option.some.injEq] at h
          subst h
          refine ⟨sameCore_refl s, ⟨rfl, by simp, heap_set_ids s.heap conn cd cd2 hcd hid, rfl⟩,
            Or.inl rfl, ?_, ?_, ?_⟩
          · rw [insertedIds_append, hins]
            rfl
          · intro e he
            rcases List.mem_append.mp he with he | he
            · exact htd e he
            · simp only [List.mem_singleton] at he
              subst he
              rfl
          · intro acc
            rw [List.foldl_append, htr]
            rfl
        | false =>
          rw [clientDataReceived_thrown codec hook fuel s chunk conn cd cd2 effs hcd hl] at h
          simp only [Option.some.injEq] at h
          subst h
          exact ⟨sameCore_refl s, ⟨rfl, by simp, heap_set_ids s.heap conn cd cd2 hcd hid, rfl⟩,
            Or.inl rfl, hins, htd, htr⟩

theorem sendResponse_frame (codec : RpcMessage) (s : TcpRpcServer) (clientId : Int)
    (msg : Bytes) :
    SameCore s (sendResponse codec s clientId msg).1
      ∧ SameIds s (sendResponse codec s clientId msg).1
      ∧ (sendResponse codec s clientId msg).1.clientDataMgr_ = s.clientDataMgr_
      ∧ insertedIds (sendResponse codec s clientId msg).2 = []
      ∧ (∀ e ∈ (sendResponse codec s clientId msg).2, e.isTeardown = false)
      ∧ ∀ acc, (sendResponse codec s clientId msg).2.foldl registryTrack acc = acc := by
  rcases hg : s.clientDataMgr_.get clientId with _ | conn
  · have hr : sendResponse codec s clientId msg = (s, []) := by simp [sendResponse, hg]
    rw [hr]
    exact ⟨sameCore_refl s, sameIds_refl s, rfl, rfl, by simp, fun _ => rfl⟩
  · have hr : sendResponse codec s clientId msg =
        ({ s with pendingWrites := s.pendingWrites ++ [(conn, codec.serializeNetPacket msg)] },
         [Effect.asyncWrite conn (codec.serializeNetPacket msg)]) := by
      simp [sendResponse, hg]
    rw [hr]
    exact ⟨sameCore_refl s, sameIds_refl s, rfl, rfl, by simp [Effect.isTeardown],
      fun _ => rfl⟩

theorem ShutdownStep_frame (s : TcpRpcServer) (pc : ShutdownPc) :
    SameIds s (ShutdownStep s pc).1 ∧ insertedIds (ShutdownStep s pc).2.2 = []
      ∧ (ShutdownStep s pc).1.io_service_stopped_ = s.io_service_stopped_
      ∧ (ShutdownStep s pc).1.processingRequests = s.processingRequests := by
  cases pc <;> rw [ShutdownStep] <;> (try split) <;>
    exact ⟨sameIds_refl s, rfl, rfl, rfl⟩

/-! ## The ids handed out by the accept loop -/

theorem AcceptInv_same (x x1 : Sys) (k : Nat) (hs : SameIds x.srv x1.srv)
    (hpc : x1.runPc = .notStarted → x.runPc = .notStarted) (h : AcceptInv x k) :
    AcceptInv x1 k := by
  obtain ⟨hnext, hlen, hids, hpend⟩ := hs
  obtain ⟨h1, h2, h3, h4⟩ := h
  refine ⟨?_, ?_, ?_, ?_⟩
  · rw [hnext, hlen]; exact h1
  · intro i cd hi
    obtain ⟨cd0, hcd0, hid⟩ := hids i cd hi
    rw [hid]
    exact h2 i cd0 hcd0
  · intro a ha
    rw [hpend] at ha
    rw [hlen]
    exact h3 a ha
  · intro hn
    obtain ⟨h5, h6, h7⟩ := h4 (hpc hn)
    refine ⟨?_, by rw [hpend]; exact h6, h7⟩
    rw [h5] at hlen
    exact List.length_eq_zero.mp hlen

theorem heap_append_ids (heap : List ClientData) (next : Int)
    (hnext : next = (heap.length : Int))
    (hids : ∀ (i : Nat) (cd : ClientData), heap[i]? = some cd → cd.clientId_ = (i : Int)) :
    ∀ (i : Nat) (cd : ClientData), (heap ++ [ClientData.new next])[i]? = some cd →
      cd.clientId_ = (i : Int) := by
  intro i cd hi
  by_cases hlt : i < heap.length
  · rw [List.getElem?_append_left hlt] at hi
    exact hids i cd hi
  · have hge : heap.length ≤ i := by omega
    rw [List.getElem?_append_right hge] at hi
    rcases hd : i - heap.length with _ | d
    · rw [hd] at hi
      simp only [List.getElem?_cons_zero, Option.some.injEq] at hi
      subst hi
      simp only [ClientData.new]
      rw [hnext]
      have : i = heap.length := by omega
      rw [this]
    · rw [hd] at hi
      simp at hi

theorem startAccept_AcceptInv (s : TcpRpcServer) (r : TcpRpcServer × List Effect) (k : Nat)
    (hnext : s.nextClientId_ = (s.heap.length : Int))
    (hids : ∀ (i : Nat) (cd : ClientData), s.heap[i]? = some cd → cd.clientId_ = (i : Int))
    (hk : s.heap.length = k) (h : startAccept s = some r) :
    r.1.nextClientId_ = (r.1.heap.length : Int)
      ∧ (∀ (i : Nat) (cd : ClientData), r.1.heap[i]? = some cd → cd.clientId_ = (i : Int))
      ∧ r.1.pendingAccept = some k ∧ k + 1 = r.1.heap.length
      ∧ r.2 = [Effect.asyncAccept k] := by
  rw [startAccept] at h
  split at h
  · cases h
  · split at h
    · simp only [Option.some.injEq] at h
      subst h
      subst hk
      refine ⟨?_, heap_append_ids s.heap _ hnext hids, rfl, by simp, rfl⟩
      simp only [List.length_append, List.length_singleton]
      rw [hnext]
      push_cast
      rfl
    · cases h

theorem step_AcceptInv (codec : RpcMessage) (hook : Hook) (x x1 : Sys) (e : Event) (effs : List Effect)
    (k : Nat) (hinv : AcceptInv x k) (h : x.step codec hook e = some (x1, effs)) :
    ∃ k1, AcceptInv x1 k1
      ∧ (List.range k).map Int.ofNat ++ insertedIds effs = (List.range k1).map Int.ofNat := by
  have hkeep : SameIds x.srv x1.srv → (x1.runPc = .notStarted → x.runPc = .notStarted) →
      insertedIds effs = [] →
      ∃ k1, AcceptInv x1 k1
        ∧ (List.range k).map Int.ofNat ++ insertedIds effs = (List.range k1).map Int.ofNat := by
    intro hs hpc hnone
    exact ⟨k, AcceptInv_same x x1 k hs hpc hinv, by rw [hnone, List.append_nil]⟩
  cases e with
  | runBind =>
    simp only [Sys.step] at h
    split at h
    · rename_i hpc
      split at h
      · rename_i r hr
        simp only [Option.some.injEq, Prod.mk.injEq] at h
        obtain ⟨rfl, rfl⟩ := h
        obtain ⟨h1, h2, h3, h4⟩ := hinv
        obtain ⟨hheap, -, hk0⟩ := h4 hpc
        have hsa := startAccept_AcceptInv { x.srv with acceptor_ := some true } r k h1 h2
          (by simp [hheap, hk0]) hr
        obtain ⟨g1, g2, g3, g4, g5⟩ := hsa
        refine ⟨k, ⟨g1, g2, ?_, ?_⟩, ?_⟩
        · intro a ha
          simp only [g3, Option.some.injEq] at ha
          exact ⟨ha.symm, g4⟩
        · intro hn; cases hn
        · rw [g5]; simp [insertedIds]
      · cases h
    · cases h
  | runMarkStarted =>
    simp only [Sys.step] at h
    split at h
    · simp only [Option.some.injEq, Prod.mk.injEq] at h
      obtain ⟨rfl, rfl⟩ := h
      exact hkeep (sameIds_refl _) (by intro hn; cases hn) rfl
    · cases h
  | acceptDone ok =>
    simp only [Sys.step] at h
    split at h
    · cases h
    · rename_i conn hp
      split at h
      · cases h
      · rename_i cd hcd
        split at h
        · rename_i hguard
          split at h
          · rename_i r hr
            simp only [Option.some.injEq, Prod.mk.injEq] at h
            obtain ⟨rfl, rfl⟩ := h
            obtain ⟨h1, h2, h3, h4⟩ := hinv
            obtain ⟨hck, hklen⟩ := h3 conn hp
            have hlt : conn < x.srv.heap.length := (List.getElem?_eq_some_iff.mp hcd).1
            have hidc : cd.clientId_ = (conn : Int) := h2 conn cd hcd
            have hids1 : ∀ (i : Nat) (c : ClientData),
                (completeAccept x.srv conn cd ok).heap[i]? = some c → c.clientId_ = (i : Int) := by
              intro i c hi
              cases ok with
              | false => exact h2 i c hi
              | true =>
                obtain ⟨c0, hc0, hid0⟩ :=
                  heap_set_ids x.srv.heap conn cd { cd with sockOpen := true } hcd rfl i c hi
                rw [hid0]
                exact h2 i c0 hc0
            have hlen1 : (completeAccept x.srv conn cd ok).heap.length = x.srv.heap.length := by
              cases ok <;> simp [completeAccept]
            by_cases hno : ok = false ∨ x.srv.stop_ = true
            · have hec : (!ok) = true ∨ (completeAccept x.srv conn cd ok).stop_ = true := by
                rcases hno with hh | hh
                · left; simp [hh]
                · right; exact hh
              rw [connAccepted_refused (completeAccept x.srv conn cd ok) conn (!ok) hec] at hr
              simp only [Option.some.injEq] at hr
              subst hr
              refine ⟨k, ⟨?_, hids1, ?_, ?_⟩, by simp [insertedIds]⟩
              · show (completeAccept x.srv conn cd ok).nextClientId_ = _
                rw [hlen1]
                exact h1
              · intro a ha
                simp [completeAccept] at ha
              · intro hn
                rw [hguard] at hn
                cases hn
            · have hok : ok = true := by
                cases ok
                · exact absurd (Or.inl rfl) hno
                · rfl
              have hstop : x.srv.stop_ = false := by
                cases hst : x.srv.stop_
                · rfl
                · exact absurd (Or.inr hst) hno
              subst hok
              have hcd2 : (completeAccept x.srv conn cd true).heap[conn]?
                  = some { cd with sockOpen := true } := by
                simp [completeAccept, List.getElem?_set, hlt]
              simp only [Bool.not_true] at hr
              obtain ⟨he, hs, hmax, hacc⟩ :=
                connAccepted_registered (completeAccept x.srv conn cd true) conn _ r hstop hcd2 hr
              have hnext1 : (completeAccept x.srv conn cd true).nextClientId_
                  = ((completeAccept x.srv conn cd true).heap.length : Int) := by
                rw [hlen1]; exact h1
              refine ⟨k + 1, ⟨?_, ?_, ?_, ?_⟩, ?_⟩
              · show r.1.nextClientId_ = (r.1.heap.length : Int)
                rw [hs]
                simp only [List.length_append, List.length_singleton]
                rw [hnext1]
                push_cast
                rfl
              · show ∀ (i : Nat) (c : ClientData), r.1.heap[i]? = some c → c.clientId_ = (i : Int)
                rw [hs]
                exact heap_append_ids _ _ hnext1 hids1
              · intro a ha
                have ha2 : r.1.pendingAccept = some a := ha
                have hl2 : r.1.heap.length = x.srv.heap.length + 1 := by
                  rw [hs]
                  simp only [List.length_append, List.length_singleton]
                  rw [hlen1]
                have ha3 : (completeAccept x.srv conn cd true).heap.length = a := by
                  rw [hs] at ha2
                  simpa using ha2
                rw [hlen1] at ha3
                constructor
                · exact ha3.symm.trans hklen.symm
                · show k + 1 + 1 = r.1.heap.length
                  omega
              · intro hn
                rw [hguard] at hn
                cases hn
              · rw [he, List.range_succ, List.map_append]
                simp only [insertedIds, List.filterMap_cons, List.filterMap_nil, List.map_cons,
                  List.map_nil]
                rw [hidc, hck]
                rfl
          · cases h
        · cases h
  | readDone conn ec chunk fuel =>
    simp only [Sys.step] at h
    split at h
    · cases h
    · split at h
      · split at h
        · rename_i r hr
          simp only [Option.some.injEq, Prod.mk.injEq] at h
          obtain ⟨rfl, rfl⟩ := h
          obtain ⟨-, hs, -, hi, -⟩ := clientDataReceived_frame codec hook fuel _ ec chunk conn r hr
          exact hkeep hs (fun hn => hn) hi
        · cases h
      · cases h
  | writeDone conn data ec =>
    simp only [Sys.step] at h
    split at h
    · simp only [Option.some.injEq, Prod.mk.injEq] at h
      obtain ⟨rfl, rfl⟩ := h
      exact hkeep (sameIds_refl _) (fun hn => hn) rfl
    · cases h
  | runLoopExit =>
    simp only [Sys.step] at h
    split at h
    · simp only [Option.some.injEq, Prod.mk.injEq] at h
      obtain ⟨rfl, rfl⟩ := h
      exact hkeep (sameIds_refl _) (by intro hn; cases hn) rfl
    · cases h
  | sendResponse clientId msg =>
    simp only [Sys.step, Option.some.injEq, Prod.mk.injEq] at h
    obtain ⟨rfl, rfl⟩ := h
    obtain ⟨-, hs, -, hi, -⟩ := sendResponse_frame codec x.srv clientId msg
    exact hkeep hs (fun hn => hn) hi
  | shutdownCall =>
    simp only [Sys.step] at h
    split at h
    · simp only [Option.some.injEq, Prod.mk.injEq] at h
      obtain ⟨rfl, rfl⟩ := h
      exact hkeep (sameIds_refl _) (fun hn => hn) rfl
    · cases h
  | shutdownStep =>
    simp only [Sys.step] at h
    split at h
    · cases h
    · cases h
    · rename_i pc _ _
      simp only [Option.some.injEq, Prod.mk.injEq] at h
      obtain ⟨rfl, rfl⟩ := h
      obtain ⟨hs, hi, -, -⟩ := ShutdownStep_frame x.srv pc
      exact hkeep hs (fun hn => hn) hi
  | setStop b =>
    simp only [Sys.step, Option.some.injEq, Prod.mk.injEq] at h
    obtain ⟨rfl, rfl⟩ := h
    exact hkeep (sameIds_refl _) (fun hn => hn) rfl
  | setProcessing n =>
    simp only [Sys.step, Option.some.injEq, Prod.mk.injEq] at h
    obtain ⟨rfl, rfl⟩ := h
    exact hkeep (sameIds_refl _) (fun hn => hn) rfl

theorem run_AcceptInv (codec : RpcMessage) (hook : Hook) :
    ∀ (evs : List Event) (x x1 : Sys) (effs : List Effect) (k : Nat),
      AcceptInv x k → Sys.run codec hook evs x = some (x1, effs) →
      ∃ k1, AcceptInv x1 k1
        ∧ (List.range k).map Int.ofNat ++ insertedIds effs = (List.range k1).map Int.ofNat := by
  intro evs
  induction evs with
  | nil =>
    intro x x1 effs k hinv h
    simp only [Sys.run, Option.some.injEq, Prod.mk.injEq] at h
    obtain ⟨rfl, rfl⟩ := h
    exact ⟨k, hinv, by simp [insertedIds]⟩
  | cons e es ih =>
    intro x x1 effs k hinv h
    rw [Sys.run] at h
    rcases hs : x.step codec hook e with _ | r
    · rw [hs] at h; cases h
    · rw [hs] at h
      simp only at h
      rcases hr : Sys.run codec hook es r.1 with _ | r2
      · rw [hr] at h; cases h
      · rw [hr] at h
        simp only [Option.some.injEq, Prod.mk.injEq] at h
        obtain ⟨rfl, rfl⟩ := h
        obtain ⟨k1, hinv1, hids1⟩ := step_AcceptInv codec hook x r.1 e r.2 k hinv hs
        obtain ⟨k2, hinv2, hids2⟩ := ih r.1 r2.1 r2.2 k1 hinv1 hr
        refine ⟨k2, hinv2, ?_⟩
        rw [insertedIds_append, ← List.append_assoc, hids1, hids2]

theorem init_AcceptInv (stop : Bool) (processing : Nat) :
    AcceptInv (Sys.init stop processing) 0 := by
  refine ⟨rfl, ?_, ?_, ?_⟩
  · intro i cd h
    simp [Sys.init, TcpRpcServer.new] at h
  · intro a h
    simp [Sys.init, TcpRpcServer.new] at h
  · intro _
    exact ⟨rfl, rfl, rfl⟩

/-- Claim C2.  Along every run of the server from its construction, whatever the events and
their order, the ids inserted into the registry are, in order of insertion, 0, 1, 2, and so
on without a gap: they are strictly increasing, pairwise distinct, and the first is 0.  A
run is a schedule every event of which has a defined outcome; incrementing the id counter
at the largest `int` has none. -/
theorem accepted_ids_increasing (codec : RpcMessage) (hook : Hook) (stop : Bool) (processing : Nat)
    (evs : List Event) (x : Sys) (effs : List Effect)
    (h : Sys.run codec hook evs (Sys.init stop processing) = some (x, effs)) :
    insertedIds effs = (List.range (insertedIds effs).length).map Int.ofNat
      ∧ (insertedIds effs).Pairwise (fun a b => a < b)
      ∧ (insertedIds effs).Nodup
      ∧ ∀ id, (insertedIds effs).head? = some id → id = 0 := by
  obtain ⟨k, -, hids⟩ :=
    run_AcceptInv codec hook evs _ x effs 0 (init_AcceptInv stop processing) h
  simp only [List.range_zero, List.map_nil, List.nil_append] at hids
  have hlen : (insertedIds effs).length = k := by rw [hids]; simp
  have hpair : ((List.range k).map Int.ofNat).Pairwise (fun a b => a < b) := by
    rw [List.pairwise_map]
    exact (List.pairwise_lt_range k).imp (fun hab => Int.ofNat_lt.mpr hab)
  refine ⟨by rw [hlen]; exact hids, by rw [hids]; exact hpair, ?_, ?_⟩
  · rw [hids]
    exact hpair.imp (fun hab => ne_of_lt hab)
  · intro id hid
    rw [hids] at hid
    cases k with
    | zero => simp at hid
    | succ n =>
      rw [List.range_succ_eq_map] at hid
      simp only [List.map_cons, List.head?_cons, Option.some.injEq] at hid
      rw [← hid]
      rfl

theorem accepted_ids_increasing_witness :
    insertedIds [Effect.asyncAccept 0, Effect.registryInsert 0 0, Effect.asyncRead 0,
        Effect.asyncAccept 1, Effect.registryInsert 1 1, Effect.asyncRead 1,
        Effect.asyncAccept 2]
      = (List.range (insertedIds [Effect.asyncAccept 0, Effect.registryInsert 0 0,
          Effect.asyncRead 0, Effect.asyncAccept 1, Effect.registryInsert 1 1,
          Effect.asyncRead 1, Effect.asyncAccept 2]).length).map Int.ofNat :=
  (accepted_ids_increasing sampleCodec sampleHook false 0
    [.runBind, .runMarkStarted, .acceptDone true, .acceptDone true]
    ((Sys.run sampleCodec sampleHook [.runBind, .runMarkStarted, .acceptDone true, .acceptDone true]
      (Sys.init false 0)).get (by decide)).1
    [Effect.asyncAccept 0, Effect.registryInsert 0 0, Effect.asyncRead 0,
     Effect.asyncAccept 1, Effect.registryInsert 1 1, Effect.asyncRead 1,
     Effect.asyncAccept 2]
    (by decide)).1

/-! ## Shutdown -/

theorem step_quiet (codec : RpcMessage) (hook : Hook) (x x1 : Sys) (e : Event)
    (effs : List Effect) (hq : e.quiet = true) (h : x.step codec hook e = some (x1, effs)) :
    x1.runPc = x.runPc ∧ x1.shutdownPc = x.shutdownPc
      ∧ x1.srv.acceptor_ = x.srv.acceptor_
      ∧ x1.srv.io_service_stopped_ = x.srv.io_service_stopped_
      ∧ x1.srv.ioStopRequested = x.srv.ioStopRequested
      ∧ (∀ acc : List (Int × Addr), (∀ p ∈ x.srv.clientDataMgr_.entries, p ∈ acc) →
          ∀ p ∈ x1.srv.clientDataMgr_.entries, p ∈ effs.foldl registryTrack acc)
      ∧ (∀ f ∈ effs, f.isTeardown = false)
      ∧ (x1.srv.processingRequests = x.srv.processingRequests
          ∨ ∃ n, e = .setProcessing n ∧ x1.srv.processingRequests = n) := by
  cases e with
  | runBind => cases hq
  | runMarkStarted => cases hq
  | runLoopExit => cases hq
  | shutdownCall => cases hq
  | shutdownStep => cases hq
  | acceptDone ok =>
    simp only [Sys.step] at h
    split at h
    · cases h
    · rename_i conn hp
      split at h
      · cases h
      · rename_i cd hcd
        split at h
        · rename_i hguard
          split at h
          · rename_i r hr
            simp only [Option.some.injEq, Prod.mk.injEq] at h
            obtain ⟨rfl, rfl⟩ := h
            have hlt : conn < x.srv.heap.length := (List.getElem?_eq_some_iff.mp hcd).1
            by_cases hno : ok = false ∨ x.srv.stop_ = true
            · have hec : (!ok) = true ∨ (completeAccept x.srv conn cd ok).stop_ = true := by
                rcases hno with hh | hh
                · left; simp [hh]
                · right; exact hh
              rw [connAccepted_refused (completeAccept x.srv conn cd ok) conn (!ok) hec] at hr
              simp only [Option.some.injEq] at hr
              subst hr
              exact ⟨rfl, rfl, rfl, rfl, rfl, fun _ h0 => h0, by simp, Or.inl rfl⟩
            · have hok : ok = true := by
                cases ok
                · exact absurd (Or.inl rfl) hno
                · rfl
              have hstop : x.srv.stop_ = false := by
                cases hst : x.srv.stop_
                · rfl
                · exact absurd (Or.inr hst) hno
              subst hok
              have hcd2 : (completeAccept x.srv conn cd true).heap[conn]?
                  = some { cd with sockOpen := true } := by
                simp [completeAccept, List.getElem?_set, hlt]
              simp only [Bool.not_true] at hr
              obtain ⟨he, hs, -, -⟩ :=
                connAccepted_registered (completeAccept x.srv conn cd true) conn _ r hstop hcd2 hr
              refine ⟨rfl, rfl, ?_, ?_, ?_, ?_, ?_, Or.inl ?_⟩
              · show r.1.acceptor_ = _; rw [hs]; rfl
              · show r.1.io_service_stopped_ = _; rw [hs]; rfl
              · show r.1.ioStopRequested = _; rw [hs]; rfl
              · intro acc hacc p hp2
                have hp3 : p ∈ r.1.clientDataMgr_.entries := hp2
                have hen : r.1.clientDataMgr_.entries = (cd.clientId_, conn) ::
                    x.srv.clientDataMgr_.entries.filter (fun e => e.1 != cd.clientId_) := by
                  rw [hs]; rfl
                rw [hen] at hp3
                rw [he]
                show p ∈ (cd.clientId_, conn) :: acc
                rcases List.mem_cons.mp hp3 with heq | hin
                · rw [heq]; exact List.mem_cons_self _ _
                · exact List.mem_cons_of_mem _ (hacc p (List.mem_filter.mp hin).1)
              · intro f hf
                rw [he] at hf
                simp only [List.mem_cons, List.mem_singleton, List.mem_nil_iff, or_false] at hf
                rcases hf with rfl | rfl | rfl <;> rfl
              · show r.1.processingRequests = _; rw [hs]; rfl
          · cases h
        · cases h
  | readDone conn ec chunk fuel =>
    simp only [Sys.step] at h
    split at h
    · cases h
    · split at h
      · split at h
        · rename_i r hr
          simp only [Option.some.injEq, Prod.mk.injEq] at h
          obtain ⟨rfl, rfl⟩ := h
          obtain ⟨⟨c1, c2, c3, c4, -⟩, -, hreg, -, htd, htr⟩ :=
            clientDataReceived_frame codec hook fuel _ ec chunk conn r hr
          refine ⟨rfl, rfl, c1, c2, c3, ?_, htd, Or.inl c4⟩
          intro acc hacc p hp2
          rw [htr]
          have hp3 : p ∈ r.1.clientDataMgr_.entries := hp2
          rcases hreg with hreg | ⟨key, hreg⟩
          · rw [hreg] at hp3
            exact hacc p hp3
          · rw [hreg] at hp3
            exact hacc p (List.mem_filter.mp hp3).1
        · cases h
      · cases h
  | writeDone conn data ec =>
    simp only [Sys.step] at h
    split at h
    · simp only [Option.some.injEq, Prod.mk.injEq] at h
      obtain ⟨rfl, rfl⟩ := h
      exact ⟨rfl, rfl, rfl, rfl, rfl, fun _ h0 => h0, by simp, Or.inl rfl⟩
    · cases h
  | sendResponse clientId msg =>
    simp only [Sys.step, Option.some.injEq, Prod.mk.injEq] at h
    obtain ⟨rfl, rfl⟩ := h
    obtain ⟨⟨c1, c2, c3, c4, -⟩, -, hreg, -, htd, htr⟩ :=
      sendResponse_frame codec x.srv clientId msg
    refine ⟨rfl, rfl, c1, c2, c3, ?_, htd, Or.inl c4⟩
    intro acc hacc p hp2
    rw [htr]
    have hp3 : p ∈ (sendResponse codec x.srv clientId msg).1.clientDataMgr_.entries := hp2
    rw [hreg] at hp3
    exact hacc p hp3
  | setStop b =>
    simp only [Sys.step, Option.some.injEq, Prod.mk.injEq] at h
    obtain ⟨rfl, rfl⟩ := h
    exact ⟨rfl, rfl, rfl, rfl, rfl, fun _ h0 => h0, by simp, Or.inl rfl⟩
  | setProcessing n =>
    simp only [Sys.step, Option.some.injEq, Prod.mk.injEq] at h
    obtain ⟨rfl, rfl⟩ := h
    exact ⟨rfl, rfl, rfl, rfl, rfl, fun _ h0 => h0, by simp, Or.inr ⟨n, rfl, rfl⟩⟩

theorem init_ShutdownInv (stop : Bool) (processing : Nat) :
    ShutdownInv (Sys.init stop processing) := by
  refine ⟨?_, ?_, ?_, ?_⟩
  · intro h; cases h
  · intro h; exact absurd rfl h
  · intro pc h; cases h
  · intro pc h; cases h

theorem step_ShutdownInv (codec : RpcMessage) (hook : Hook) (x x1 : Sys) (e : Event)
    (effs : List Effect) (hinv : ShutdownInv x) (h : x.step codec hook e = some (x1, effs)) :
    ShutdownInv x1 := by
  obtain ⟨i1, i2, i3, i4⟩ := hinv
  by_cases hq : e.quiet = true
  · obtain ⟨q1, q2, q3, q4, -, -, -, -⟩ := step_quiet codec hook x x1 e effs hq h
    refine ⟨?_, ?_, ?_, ?_⟩
    · rw [q4, q1]; exact i1
    · rw [q1, q3]; exact i2
    · rw [q1, q2]; exact i3
    · rw [q2, q3]; exact i4
  · cases e with
    | acceptDone ok => exact absurd rfl hq
    | readDone conn ec chunk fuel => exact absurd rfl hq
    | writeDone conn data ec => exact absurd rfl hq
    | sendResponse clientId msg => exact absurd rfl hq
    | setStop b => exact absurd rfl hq
    | setProcessing n => exact absurd rfl hq
    | runBind =>
      simp only [Sys.step] at h
      split at h
      · rename_i hpc
        split at h
        · rename_i r hr
          simp only [Option.some.injEq, Prod.mk.injEq] at h
          obtain ⟨rfl, rfl⟩ := h
          have hflag : x.srv.io_service_stopped_ = true := by
            cases hf : x.srv.io_service_stopped_
            · have := i1 hf
              rw [hpc] at this
              cases this
            · rfl
          have hnopast : ∀ pc, x.shutdownPc = some pc → pc.past = true → False := by
            intro pc h1 h2
            rcases i3 pc h1 h2 with h3 | h3 <;> rw [hpc] at h3 <;> cases h3
          simp only [RunBind, startAccept] at hr
          split at hr
          · simp only [Option.some.injEq] at hr
            subst hr
            refine ⟨?_, ?_, ?_, ?_⟩
            · intro hf
              have : x.srv.io_service_stopped_ = false := hf
              rw [hflag] at this
              cases this
            · intro _ hn
              cases hn
            · intro pc h1 h2
              exact absurd (hnopast pc h1 h2) id
            · intro pc h1 h2
              exact absurd
                (hnopast pc h1 (by rcases h2 with h0 | h0 | h0 | h0 <;> rw [h0] <;> rfl)) id
          · cases hr
        · cases h
      · cases h
    | runMarkStarted =>
      simp only [Sys.step] at h
      split at h
      · rename_i hpc
        simp only [Option.some.injEq, Prod.mk.injEq] at h
        obtain ⟨rfl, rfl⟩ := h
        refine ⟨fun _ => rfl, ?_, fun _ _ _ => Or.inl rfl, i4⟩
        intro _
        exact i2 (by rw [hpc]; intro hn; cases hn)
      · cases h
    | runLoopExit =>
      simp only [Sys.step] at h
      split at h
      · rename_i hg
        simp only [Option.some.injEq, Prod.mk.injEq] at h
        obtain ⟨rfl, rfl⟩ := h
        refine ⟨?_, ?_, fun _ _ _ => Or.inr rfl, i4⟩
        · intro hf; cases hf
        · intro _
          exact i2 (by rw [hg.1]; intro hn; cases hn)
      · cases h
    | shutdownCall =>
      simp only [Sys.step] at h
      split at h
      · simp only [Option.some.injEq, Prod.mk.injEq] at h
        obtain ⟨rfl, rfl⟩ := h
        refine ⟨i1, i2, ?_, ?_⟩
        · intro pc h1 h2
          simp only [Option.some.injEq] at h1
          subst h1
          cases h2
        · intro pc h1 h2
          simp only [Option.some.injEq] at h1
          subst h1
          rcases h2 with h0 | h0 | h0 | h0 <;> cases h0
      · cases h
    | shutdownStep =>
      simp only [Sys.step] at h
      split at h
      · cases h
      · cases h
      · rename_i pc hnr hpc
        simp only [Option.some.injEq, Prod.mk.injEq] at h
        obtain ⟨rfl, rfl⟩ := h
        cases pc with
        | returned => exact absurd rfl hnr
        | entry =>
          cases hf : x.srv.io_service_stopped_
          · have hstep : ShutdownStep x.srv .entry = (x.srv, .closeAcceptor, []) := by
              simp [ShutdownStep, hf]
            rw [hstep]
            refine ⟨i1, i2, ?_, ?_⟩
            · intro pc h1 _
              exact Or.inl (i1 hf)
            · intro pc h1 h2
              simp only [Option.some.injEq] at h1
              subst h1
              rcases h2 with h0 | h0 | h0 | h0 <;> cases h0
          · have hstep : ShutdownStep x.srv .entry = (x.srv, .returned, []) := by
              simp [ShutdownStep, hf]
            rw [hstep]
            refine ⟨i1, i2, ?_, ?_⟩
            · intro pc h1 h2
              simp only [Option.some.injEq] at h1
              subst h1
              cases h2
            · intro pc h1 h2
              simp only [Option.some.injEq] at h1
              subst h1
              rcases h2 with h0 | h0 | h0 | h0 <;> cases h0
        | closeAcceptor =>
          have hrun := i3 _ hpc rfl
          have hacc : x.srv.acceptor_ ≠ none :=
            i2 (by rcases hrun with h0 | h0 <;> rw [h0] <;> intro hn <;> cases hn)
          rcases hb : x.srv.acceptor_ with _ | b
          · exact absurd hb hacc
          · have hstep : ShutdownStep x.srv .closeAcceptor
                = ({ x.srv with acceptor_ := some false }, .waitRequests, []) := by
              simp [ShutdownStep, hb]
            rw [hstep]
            refine ⟨i1, ?_, fun _ _ _ => hrun, fun _ _ _ => rfl⟩
            intro _ hn
            cases hn
        | waitRequests =>
          have hrun := i3 _ hpc rfl
          have hclosed := i4 _ hpc (Or.inl rfl)
          by_cases hp : x.srv.getProcessingRequests > 0
          · have hstep : ShutdownStep x.srv .waitRequests
                = (x.srv, .waitRequests, [Effect.yield]) := by
              simp [ShutdownStep, hp]
            rw [hstep]
            exact ⟨i1, i2, fun _ _ _ => hrun, fun _ _ _ => hclosed⟩
          · have hstep : ShutdownStep x.srv .waitRequests = (x.srv, .eraseAll, []) := by
              simp only [ShutdownStep, hp, if_false]
            rw [hstep]
            exact ⟨i1, i2, fun _ _ _ => hrun, fun _ _ _ => hclosed⟩
        | eraseAll =>
          have hrun := i3 _ hpc rfl
          have hclosed := i4 _ hpc (Or.inr (Or.inl rfl))
          exact ⟨i1, i2, fun _ _ _ => hrun, fun _ _ _ => hclosed⟩
        | stopIo =>
          have hrun := i3 _ hpc rfl
          have hclosed := i4 _ hpc (Or.inr (Or.inr (Or.inl rfl)))
          exact ⟨i1, i2, fun _ _ _ => hrun, fun _ _ _ => hclosed⟩
        | waitStopped =>
          have hrun := i3 _ hpc rfl
          have hclosed := i4 _ hpc (Or.inr (Or.inr (Or.inr rfl)))
          cases hf : x.srv.io_service_stopped_
          · have hstep : ShutdownStep x.srv .waitStopped
                = (x.srv, .waitStopped, [Effect.yield]) := by
              simp [ShutdownStep, hf]
            rw [hstep]
            exact ⟨i1, i2, fun _ _ _ => hrun, fun _ _ _ => hclosed⟩
          · have hstep : ShutdownStep x.srv .waitStopped = (x.srv, .returned, []) := by
              simp [ShutdownStep, hf]
            rw [hstep]
            exact ⟨i1, i2, fun _ _ _ => hrun, fun _ _ _ => hclosed⟩

theorem run_ShutdownInv (codec : RpcMessage) (hook : Hook) :
    ∀ (evs : List Event) (x x1 : Sys) (effs : List Effect),
      ShutdownInv x → Sys.run codec hook evs x = some (x1, effs) → ShutdownInv x1 := by
  intro evs
  induction evs with
  | nil =>
    intro x x1 effs hinv h
    simp only [Sys.run, Option.some.injEq, Prod.mk.injEq] at h
    obtain ⟨rfl, rfl⟩ := h
    exact hinv
  | cons e es ih =>
    intro x x1 effs hinv h
    rw [Sys.run] at h
    rcases hs : x.step codec hook e with _ | r
    · rw [hs] at h; cases h
    · rw [hs] at h
      simp only at h
      rcases hr : Sys.run codec hook es r.1 with _ | r2
      · rw [hr] at h; cases h
      · rw [hr] at h
        simp only [Option.some.injEq, Prod.mk.injEq] at h
        obtain ⟨rfl, rfl⟩ := h
        exact ih r.1 r2.1 r2.2 (step_ShutdownInv codec hook x r.1 e r.2 hinv hs) hr

theorem shutdownStep_returns (codec : RpcMessage) (hook : Hook) (x x1 : Sys) (effs : List Effect)
    (hstep : x.step codec hook .shutdownStep = some (x1, effs))
    (hret : x1.shutdownPc = some .returned) :
    x1.srv.io_service_stopped_ = true ∧ x1.srv = x.srv ∧ effs = []
      ∧ (x.shutdownPc = some .entry ∨ x.shutdownPc = some .waitStopped) := by
  simp only [Sys.step] at hstep
  split at hstep
  · cases hstep
  · cases hstep
  · rename_i pc hnr hpc
    simp only [Option.some.injEq, Prod.mk.injEq] at hstep
    obtain ⟨rfl, rfl⟩ := hstep
    simp only [Option.some.injEq] at hret
    cases pc with
    | returned => exact absurd rfl hnr
    | entry =>
      cases hf : x.srv.io_service_stopped_
      · simp [ShutdownStep, hf] at hret
      · simp [ShutdownStep, hf, hpc]
    | closeAcceptor =>
      rcases hb : x.srv.acceptor_ with _ | b <;> simp [ShutdownStep, hb] at hret
    | waitRequests =>
      by_cases hp : x.srv.getProcessingRequests > 0
      · simp [ShutdownStep, hp] at hret
      · simp only [ShutdownStep, hp, if_false] at hret
        cases hret
    | eraseAll => simp [ShutdownStep] at hret
    | stopIo => simp [ShutdownStep] at hret
    | waitStopped =>
      cases hf : x.srv.io_service_stopped_
      · simp [ShutdownStep, hf] at hret
      · simp [ShutdownStep, hf, hpc]

/-- Handlers as single events lose no state.  When `Shutdown` executes `erase_all()`, or
closes the acceptor, between the insert on line 154 and the two calls on lines 155 and 156,
the server ends as it does when the whole of `connAccepted` runs first and the statement
of `Shutdown` after it. -/
theorem connAccepted_interleaved (s : TcpRpcServer) (conn : Addr) (cd : ClientData)
    (r : TcpRpcServer × List Effect) (hstop : s.stop_ = false)
    (hcd : s.heap[conn]? = some cd) (h : connAccepted s conn false = some r) :
    (startAccept (startRead
        { s with clientDataMgr_ := (s.clientDataMgr_.insert cd.clientId_ conn).erase_all }
        (some conn)).1).map (fun r3 => r3.1)
      = some (ShutdownStep r.1 .eraseAll).1
    ∧ (startAccept (startRead
        { s with
            clientDataMgr_ := s.clientDataMgr_.insert cd.clientId_ conn
            acceptor_ := some false }
        (some conn)).1).map (fun r3 => r3.1)
      = some (ShutdownStep r.1 .closeAcceptor).1 := by
  obtain ⟨-, hs, hmax, hacc⟩ := connAccepted_registered s conn cd r hstop hcd h
  rcases hb : s.acceptor_ with _ | b
  · exact absurd hb hacc
  · constructor
    · rw [hs]
      simp [startAccept, startRead, hb, hmax, ShutdownStep]
    · rw [hs]
      simp [startAccept, startRead, hb, hmax, ShutdownStep]

theorem sinceClear_append (a b : List Effect) :
    sinceClear (a ++ b) = b.foldl registryTrack (sinceClear a) := by
  simp [sinceClear, List.foldl_append]

theorem init_TraceInv (stop : Bool) (processing : Nat) :
    TraceInv (Sys.init stop processing) [] := by
  refine ⟨?_, ?_, ?_⟩
  · intro p hp
    simp [Sys.init, TcpRpcServer.new, ThreadSafeMap.empty] at hp
  · intro pc h; cases h
  · intro h; cases h

theorem step_TraceInv (codec : RpcMessage) (hook : Hook) (x x1 : Sys) (e : Event)
    (effs0 effs : List Effect) (hinv : TraceInv x effs0)
    (h : x.step codec hook e = some (x1, effs)) : TraceInv x1 (effs0 ++ effs) := by
  obtain ⟨t1, t2, t3⟩ := hinv
  have hsame : x1.srv = x.srv → x1.shutdownPc = x.shutdownPc →
      (∀ acc, effs.foldl registryTrack acc = acc) → TraceInv x1 (effs0 ++ effs) := by
    intro hs hp hn
    refine ⟨?_, ?_, ?_⟩
    · rw [sinceClear_append, hn, hs]; exact t1
    · intro pc hpc hcase
      rw [hp] at hpc
      exact List.mem_append_left _ (t2 pc hpc hcase)
    · intro hpc
      rw [hp] at hpc
      rw [hs]
      exact ⟨List.mem_append_left _ (t3 hpc).1, (t3 hpc).2⟩
  by_cases hq : e.quiet = true
  · obtain ⟨-, q2, -, -, q5, q6, -, -⟩ := step_quiet codec hook x x1 e effs hq h
    refine ⟨?_, ?_, ?_⟩
    · rw [sinceClear_append]
      exact q6 _ t1
    · intro pc hpc hcase
      rw [q2] at hpc
      exact List.mem_append_left _ (t2 pc hpc hcase)
    · intro hpc
      rw [q2] at hpc
      rw [q5]
      exact ⟨List.mem_append_left _ (t3 hpc).1, (t3 hpc).2⟩
  · cases e with
    | acceptDone ok => exact absurd rfl hq
    | readDone conn ec chunk fuel => exact absurd rfl hq
    | writeDone conn data ec => exact absurd rfl hq
    | sendResponse clientId msg => exact absurd rfl hq
    | setStop b => exact absurd rfl hq
    | setProcessing n => exact absurd rfl hq
    | runBind =>
      simp only [Sys.step] at h
      split at h
      · split at h
        · rename_i r hr
          simp only [Option.some.injEq, Prod.mk.injEq] at h
          obtain ⟨rfl, rfl⟩ := h
          simp only [RunBind, startAccept] at hr
          split at hr
          · simp only [Option.some.injEq] at hr
            subst hr
            refine ⟨?_, ?_, ?_⟩
            · rw [sinceClear_append]
              exact t1
            · intro pc hpc hcase
              exact List.mem_append_left _ (t2 pc hpc hcase)
            · intro hpc
              exact ⟨List.mem_append_left _ (t3 hpc).1, (t3 hpc).2⟩
          · cases hr
        · cases h
      · cases h
    | runMarkStarted =>
      simp only [Sys.step] at h
      split at h
      · simp only [Option.some.injEq, Prod.mk.injEq] at h
        obtain ⟨rfl, rfl⟩ := h
        refine ⟨?_, ?_, ?_⟩
        · rw [List.append_nil]; exact t1
        · rw [List.append_nil]; exact t2
        · rw [List.append_nil]; exact t3
      · cases h
    | runLoopExit =>
      simp only [Sys.step] at h
      split at h
      · simp only [Option.some.injEq, Prod.mk.injEq] at h
        obtain ⟨rfl, rfl⟩ := h
        refine ⟨?_, ?_, ?_⟩
        · rw [List.append_nil]; exact t1
        · rw [List.append_nil]; exact t2
        · rw [List.append_nil]; exact t3
      · cases h
    | shutdownCall =>
      simp only [Sys.step] at h
      split at h
      · simp only [Option.some.injEq, Prod.mk.injEq] at h
        obtain ⟨rfl, rfl⟩ := h
        refine ⟨?_, ?_, ?_⟩
        · rw [List.append_nil]; exact t1
        · intro pc hpc hcase
          simp only [Option.some.injEq] at hpc
          subst hpc
          rcases hcase with h0 | h0 <;> cases h0
        · intro hpc
          simp only [Option.some.injEq] at hpc
          cases hpc
      · cases h
    | shutdownStep =>
      simp only [Sys.step] at h
      split at h
      · cases h
      · cases h
      · rename_i pc hnr hpc
        simp only [Option.some.injEq, Prod.mk.injEq] at h
        obtain ⟨rfl, rfl⟩ := h
        have hearly : ∀ (pc2 : ShutdownPc) (l : List Effect),
            ShutdownStep x.srv pc = (x.srv, pc2, l) →
            (∀ acc, l.foldl registryTrack acc = acc) →
            pc2 ≠ .stopIo → (pc2 = .waitStopped → pc = .waitStopped) →
            TraceInv { x with srv := (ShutdownStep x.srv pc).1,
                              shutdownPc := some (ShutdownStep x.srv pc).2.1 }
              (effs0 ++ (ShutdownStep x.srv pc).2.2) := by
          intro pc2 l hstep hl hne hw
          rw [hstep]
          refine ⟨?_, ?_, ?_⟩
          · rw [sinceClear_append, hl]; exact t1
          · intro pc3 hpc3 hcase
            simp only [Option.some.injEq] at hpc3
            subst hpc3
            rcases hcase with h0 | h0
            · exact absurd h0 hne
            · have := hw h0
              subst this
              exact List.mem_append_left _ (t2 _ hpc (Or.inr rfl))
          · intro hpc3
            simp only [Option.some.injEq] at hpc3
            have := hw hpc3
            subst this
            exact ⟨List.mem_append_left _ (t3 hpc).1, (t3 hpc).2⟩
        cases pc with
        | returned => exact absurd rfl hnr
        | entry =>
          cases hf : x.srv.io_service_stopped_
          · exact hearly .closeAcceptor [] (by simp [ShutdownStep, hf]) (fun _ => rfl)
              (by intro hh; cases hh) (by intro hh; cases hh)
          · exact hearly .returned [] (by simp [ShutdownStep, hf]) (fun _ => rfl)
              (by intro hh; cases hh) (by intro hh; cases hh)
        | closeAcceptor =>
          rcases hb : x.srv.acceptor_ with _ | b
          · exact hearly .waitRequests [] (by simp [ShutdownStep, hb]) (fun _ => rfl)
              (by intro hh; cases hh) (by intro hh; cases hh)
          · have hstep : ShutdownStep x.srv .closeAcceptor
                = ({ x.srv with acceptor_ := some false }, .waitRequests, []) := by
              simp [ShutdownStep, hb]
            rw [hstep]
            refine ⟨?_, ?_, ?_⟩
            · rw [List.append_nil]; exact t1
            · intro pc3 hpc3 hcase
              simp only [Option.some.injEq] at hpc3
              subst hpc3
              rcases hcase with h0 | h0 <;> cases h0
            · intro hpc3
              simp only [Option.some.injEq] at hpc3
              cases hpc3
        | waitRequests =>
          by_cases hp : x.srv.getProcessingRequests > 0
          · exact hearly .waitRequests [Effect.yield] (by simp [ShutdownStep, hp])
              (fun _ => rfl) (by intro hh; cases hh) (by intro hh; cases hh)
          · exact hearly .eraseAll [] (by simp only [ShutdownStep, hp, if_false])
              (fun _ => rfl) (by intro hh; cases hh) (by intro hh; cases hh)
        | eraseAll =>
          refine ⟨?_, ?_, ?_⟩
          · intro p hp
            cases hp
          · intro pc3 _ _
            exact List.mem_append_right _ (List.mem_singleton_self _)
          · intro hpc3
            simp only [ShutdownStep, Option.some.injEq] at hpc3
            cases hpc3
        | stopIo =>
          refine ⟨?_, ?_, ?_⟩
          · rw [sinceClear_append]
            exact t1
          · intro pc3 _ _
            exact List.mem_append_left _ (t2 _ hpc (Or.inl rfl))
          · intro _
            exact ⟨List.mem_append_right _ (List.mem_singleton_self _), rfl⟩
        | waitStopped =>
          cases hf : x.srv.io_service_stopped_
          · exact hearly .waitStopped [Effect.yield] (by simp [ShutdownStep, hf])
              (fun _ => rfl) (by intro hh; cases hh) (fun _ => rfl)
          · exact hearly .returned [] (by simp [ShutdownStep, hf])
              (fun _ => rfl) (by intro hh; cases hh) (by intro hh; cases hh)

theorem run_TraceInv (codec : RpcMessage) (hook : Hook) :
    ∀ (evs : List Event) (x x1 : Sys) (effs0 effs : List Effect),
      TraceInv x effs0 → Sys.run codec hook evs x = some (x1, effs) →
      TraceInv x1 (effs0 ++ effs) := by
  intro evs
  induction evs with
  | nil =>
    intro x x1 effs0 effs hinv h
    simp only [Sys.run, Option.some.injEq, Prod.mk.injEq] at h
    obtain ⟨rfl, rfl⟩ := h
    rw [List.append_nil]
    exact hinv
  | cons e es ih =>
    intro x x1 effs0 effs hinv h
    rw [Sys.run] at h
    rcases hs : x.step codec hook e with _ | r
    · rw [hs] at h; cases h
    · rw [hs] at h
      simp only at h
      rcases hr : Sys.run codec hook es r.1 with _ | r2
      · rw [hr] at h; cases h
      · rw [hr] at h
        simp only [Option.some.injEq, Prod.mk.injEq] at h
        obtain ⟨rfl, rfl⟩ := h
        rw [← List.append_assoc]
        exact ih r.1 r2.1 _ r2.2 (step_TraceInv codec hook x r.1 e effs0 r.2 hinv hs) hr

/-- Claim C7, as the code has it.  In every state reachable from construction, when a step
of `Shutdown` makes the call return, `io_service_stopped_` is true.  The call returns either
from line 78, having found `io_service_stopped_` set and having changed nothing, the
acceptor included, or from the loop on lines 95 to 97.  In the second case, the one of a
`Shutdown` called while the event loop was running, the acceptor is closed and `erase_all()`
and `io_service_.stop()` have been executed.  In both cases the registry holds at most the
connections `connAccepted` inserted after the last `erase_all()`. -/
theorem Shutdown_returns_stopped (codec : RpcMessage) (hook : Hook) (stop : Bool)
    (processing : Nat) (evs : List Event) (x x1 : Sys) (effs effs1 : List Effect)
    (hreach : Sys.run codec hook evs (Sys.init stop processing) = some (x, effs))
    (hstep : x.step codec hook .shutdownStep = some (x1, effs1))
    (hret : x1.shutdownPc = some .returned) :
    x1.srv.io_service_stopped_ = true
      ∧ x1.srv = x.srv ∧ effs1 = []
      ∧ (x.shutdownPc = some .entry ∨ x.shutdownPc = some .waitStopped)
      ∧ (x.shutdownPc = some .waitStopped →
          x1.srv.acceptor_ = some false ∧ Effect.registryEraseAll ∈ effs
            ∧ Effect.ioStop ∈ effs ∧ x1.srv.ioStopRequested = true)
      ∧ (∀ p ∈ x1.srv.clientDataMgr_.entries, p ∈ sinceClear effs) := by
  obtain ⟨h1, h2, h3, h4⟩ := shutdownStep_returns codec hook x x1 effs1 hstep hret
  have hsd := run_ShutdownInv codec hook evs _ x effs (init_ShutdownInv stop processing) hreach
  have htr := run_TraceInv codec hook evs _ x [] effs (init_TraceInv stop processing) hreach
  rw [List.nil_append] at htr
  obtain ⟨t1, t2, t3⟩ := htr
  refine ⟨h1, h2, h3, h4, ?_, ?_⟩
  · intro hpc
    rw [h2]
    exact ⟨hsd.2.2.2 _ hpc (Or.inr (Or.inr (Or.inr rfl))), t2 _ hpc (Or.inr rfl),
      (t3 hpc).1, (t3 hpc).2⟩
  · rw [h2]
    exact t1

theorem Shutdown_returns_stopped_witness :
    sampleDrained.srv.io_service_stopped_ = true
      ∧ sampleDrained.srv.acceptor_ = some false
      ∧ (∀ p ∈ sampleDrained.srv.clientDataMgr_.entries,
          p ∈ sinceClear [Effect.asyncAccept 0, Effect.registryInsert 0 0, Effect.asyncRead 0,
            Effect.asyncAccept 1, Effect.registryEraseAll, Effect.ioStop]) :=
  have h := Shutdown_returns_stopped sampleCodec sampleHook false 0 sampleShutdownRun
    sampleDrained { sampleDrained with shutdownPc := some .returned }
    [Effect.asyncAccept 0, Effect.registryInsert 0 0, Effect.asyncRead 0, Effect.asyncAccept 1,
     Effect.registryEraseAll, Effect.ioStop] []
    (by decide) (by decide) rfl
  ⟨h.1, (h.2.2.2.2.1 rfl).1, h.2.2.2.2.2⟩

/-- Claim C7 fails on the code, in two ways.  First run: the first accept of a started
server fails, the event loop runs out of work and `Run` returns; `Shutdown` is then called
and returns from line 78 with the acceptor still open.  Second run: `Shutdown` is called on
a running server and executes lines 77 to 91; the handler of an accept that had completed
without error runs next and inserts connection 0 on line 154; `Shutdown` goes on to its
return with id 0 in the registry. -/
theorem Shutdown_leaves_listener_open :
    (Sys.run sampleCodec sampleHook
        [.runBind, .runMarkStarted, .acceptDone false, .runLoopExit, .shutdownCall, .shutdownStep]
        (Sys.init false 0)).map
        (fun r => (r.1.shutdownPc, r.1.srv.io_service_stopped_, r.1.srv.acceptor_))
      = some (some ShutdownPc.returned, true, some true)
    ∧ (Sys.run sampleCodec sampleHook
        [.runBind, .runMarkStarted, .shutdownCall, .shutdownStep, .shutdownStep, .shutdownStep,
         .shutdownStep, .acceptDone true, .shutdownStep, .runLoopExit, .shutdownStep]
        (Sys.init false 0)).map
        (fun r => (r.1.shutdownPc, r.1.srv.io_service_stopped_, r.1.srv.clientDataMgr_.entries))
      = some (some ShutdownPc.returned, true, [(0, 0)]) := by
  decide

/-- Claim C8.  On a server whose `io_service_stopped_` is true (the value the constructor
sets and the value every returning `Shutdown` leaves) a call of `Shutdown` returns from
line 78 without an effect and without changing any member of the server, so a second call
right after it leaves the same state as the first.  Whenever a step makes a `Shutdown`
return, `io_service_stopped_` is true, so a `Shutdown` that follows it at once is such a
call. -/
theorem Shutdown_idempotent (codec : RpcMessage) (hook : Hook) (x : Sys)
    (hstopped : x.srv.io_service_stopped_ = true)
    (hidle : x.shutdownPc = none ∨ x.shutdownPc = some .returned) :
    ShutdownStep x.srv .entry = (x.srv, .returned, [])
      ∧ Sys.run codec hook [.shutdownCall, .shutdownStep] x
          = some ({ x with shutdownPc := some .returned }, [])
      ∧ Sys.run codec hook [.shutdownCall, .shutdownStep, .shutdownCall, .shutdownStep] x
          = Sys.run codec hook [.shutdownCall, .shutdownStep] x
      ∧ (∀ stop processing, (Sys.init stop processing).srv.io_service_stopped_ = true)
      ∧ (∀ (y y1 : Sys) (effs : List Effect), y.step codec hook .shutdownStep = some (y1, effs) →
          y1.shutdownPc = some .returned →
          y1.srv.io_service_stopped_ = true
            ∧ Sys.run codec hook [.shutdownCall, .shutdownStep] y1 = some (y1, [])) := by
  have hentry : ∀ s : TcpRpcServer, s.io_service_stopped_ = true →
      ShutdownStep s .entry = (s, .returned, []) := by
    intro s hs
    simp [ShutdownStep, hs]
  have honce : ∀ y : Sys, y.srv.io_service_stopped_ = true →
      (y.shutdownPc = none ∨ y.shutdownPc = some .returned) →
      Sys.run codec hook [.shutdownCall, .shutdownStep] y
        = some ({ y with shutdownPc := some .returned }, []) := by
    intro y hy hi
    simp [Sys.run, Sys.step, hi, hentry y.srv hy]
  have htwice : Sys.run codec hook [.shutdownCall, .shutdownStep, .shutdownCall, .shutdownStep] x
      = Sys.run codec hook [.shutdownCall, .shutdownStep] x := by
    rw [honce x hstopped hidle]
    simp [Sys.run, Sys.step, hidle, hentry x.srv hstopped]
  refine ⟨hentry x.srv hstopped, honce x hstopped hidle, htwice, fun _ _ => rfl, ?_⟩
  intro y y1 effs hstep hret
  obtain ⟨h1, -, -, -⟩ := shutdownStep_returns codec hook y y1 effs hstep hret
  refine ⟨h1, ?_⟩
  rw [honce y1 h1 (Or.inr hret)]
  cases y1
  simp only at hret
  subst hret
  rfl

theorem Shutdown_idempotent_witness :
    ShutdownStep (Sys.init false 0).srv .entry = ((Sys.init false 0).srv, .returned, [])
      ∧ Sys.run sampleCodec sampleHook [.shutdownCall, .shutdownStep] (Sys.init false 0)
          = some ({ Sys.init false 0 with shutdownPc := some .returned }, [])
      ∧ Sys.run sampleCodec sampleHook [.shutdownCall, .shutdownStep, .shutdownCall, .shutdownStep]
            (Sys.init false 0)
          = Sys.run sampleCodec sampleHook [.shutdownCall, .shutdownStep] (Sys.init false 0) :=
  have h := Shutdown_idempotent sampleCodec sampleHook (Sys.init false 0) rfl (Or.inl rfl)
  ⟨h.1, h.2.1, h.2.2.1⟩

theorem step_beforeErase (codec : RpcMessage) (hook : Hook) (x x1 : Sys) (e : Event) (effs : List Effect)
    (hcount : 0 < x.srv.getProcessingRequests)
    (hpc : ∃ pc, x.shutdownPc = some pc ∧ pc.beforeErase = true)
    (hpos : ∀ n, e = .setProcessing n → 0 < n)
    (h : x.step codec hook e = some (x1, effs)) :
    0 < x1.srv.getProcessingRequests
      ∧ (∃ pc, x1.shutdownPc = some pc ∧ pc.beforeErase = true)
      ∧ (∀ f ∈ effs, f.isTeardown = false)
      ∧ x1.srv.ioStopRequested = x.srv.ioStopRequested := by
  by_cases hq : e.quiet = true
  · obtain ⟨-, q2, -, -, q5, -, q7, q8⟩ := step_quiet codec hook x x1 e effs hq h
    refine ⟨?_, by rw [q2]; exact hpc, q7, q5⟩
    rcases q8 with q8 | ⟨n, hn, q8⟩
    · show 0 < x1.srv.processingRequests
      rw [q8]; exact hcount
    · show 0 < x1.srv.processingRequests
      rw [q8]; exact hpos n hn
  · cases e with
    | acceptDone ok => exact absurd rfl hq
    | readDone conn ec chunk fuel => exact absurd rfl hq
    | writeDone conn data ec => exact absurd rfl hq
    | sendResponse clientId msg => exact absurd rfl hq
    | setStop b => exact absurd rfl hq
    | setProcessing n => exact absurd rfl hq
    | runBind =>
      simp only [Sys.step] at h
      split at h
      · split at h
        · rename_i r hr
          simp only [Option.some.injEq, Prod.mk.injEq] at h
          obtain ⟨rfl, rfl⟩ := h
          simp only [RunBind, startAccept] at hr
          split at hr
          · simp only [Option.some.injEq] at hr
            subst hr
            exact ⟨hcount, hpc, by simp [Effect.isTeardown], rfl⟩
          · cases hr
        · cases h
      · cases h
    | runMarkStarted =>
      simp only [Sys.step] at h
      split at h
      · simp only [Option.some.injEq, Prod.mk.injEq] at h
        obtain ⟨rfl, rfl⟩ := h
        exact ⟨hcount, hpc, by simp, rfl⟩
      · cases h
    | runLoopExit =>
      simp only [Sys.step] at h
      split at h
      · simp only [Option.some.injEq, Prod.mk.injEq] at h
        obtain ⟨rfl, rfl⟩ := h
        exact ⟨hcount, hpc, by simp, rfl⟩
      · cases h
    | shutdownCall =>
      simp only [Sys.step] at h
      split at h
      · simp only [Option.some.injEq, Prod.mk.injEq] at h
        obtain ⟨rfl, rfl⟩ := h
        exact ⟨hcount, ⟨.entry, rfl, rfl⟩, by simp, rfl⟩
      · cases h
    | shutdownStep =>
      obtain ⟨pc0, hpc0, hbefore⟩ := hpc
      simp only [Sys.step] at h
      split at h
      · cases h
      · cases h
      · rename_i pc hnr hpceq
        simp only [Option.some.injEq, Prod.mk.injEq] at h
        obtain ⟨rfl, rfl⟩ := h
        rw [hpceq] at hpc0
        simp only [Option.some.injEq] at hpc0
        subst hpc0
        cases pc with
        | returned => exact absurd rfl hnr
        | eraseAll => cases hbefore
        | stopIo => cases hbefore
        | waitStopped => cases hbefore
        | entry =>
          cases hf : x.srv.io_service_stopped_
          · have hstep : ShutdownStep x.srv .entry = (x.srv, .closeAcceptor, []) := by
              simp [ShutdownStep, hf]
            rw [hstep]
            exact ⟨hcount, ⟨.closeAcceptor, rfl, rfl⟩, by simp, rfl⟩
          · have hstep : ShutdownStep x.srv .entry = (x.srv, .returned, []) := by
              simp [ShutdownStep, hf]
            rw [hstep]
            exact ⟨hcount, ⟨.returned, rfl, rfl⟩, by simp, rfl⟩
        | closeAcceptor =>
          rcases hb : x.srv.acceptor_ with _ | b
          · have hstep : ShutdownStep x.srv .closeAcceptor = (x.srv, .waitRequests, []) := by
              simp [ShutdownStep, hb]
            rw [hstep]
            exact ⟨hcount, ⟨.waitRequests, rfl, rfl⟩, by simp, rfl⟩
          · have hstep : ShutdownStep x.srv .closeAcceptor
                = ({ x.srv with acceptor_ := some false }, .waitRequests, []) := by
              simp [ShutdownStep, hb]
            rw [hstep]
            exact ⟨hcount, ⟨.waitRequests, rfl, rfl⟩, by simp, rfl⟩
        | waitRequests =>
          have hstep : ShutdownStep x.srv .waitRequests
              = (x.srv, .waitRequests, [Effect.yield]) := by
            simp [ShutdownStep, hcount]
          rw [hstep]
          exact ⟨hcount, ⟨.waitRequests, rfl, rfl⟩, by simp [Effect.isTeardown], rfl⟩

theorem run_beforeErase (codec : RpcMessage) (hook : Hook) :
    ∀ (evs : List Event) (x x1 : Sys) (effs : List Effect),
      0 < x.srv.getProcessingRequests →
      (∃ pc, x.shutdownPc = some pc ∧ pc.beforeErase = true) →
      (∀ n, Event.setProcessing n ∈ evs → 0 < n) →
      Sys.run codec hook evs x = some (x1, effs) →
      0 < x1.srv.getProcessingRequests
        ∧ (∃ pc, x1.shutdownPc = some pc ∧ pc.beforeErase = true)
        ∧ (∀ f ∈ effs, f.isTeardown = false)
        ∧ x1.srv.ioStopRequested = x.srv.ioStopRequested := by
  intro evs
  induction evs with
  | nil =>
    intro x x1 effs hcount hpc _ h
    simp only [Sys.run, Option.some.injEq, Prod.mk.injEq] at h
    obtain ⟨rfl, rfl⟩ := h
    exact ⟨hcount, hpc, by simp, rfl⟩
  | cons e es ih =>
    intro x x1 effs hcount hpc hpos h
    rw [Sys.run] at h
    rcases hs : x.step codec hook e with _ | r
    · rw [hs] at h; cases h
    · rw [hs] at h
      simp only at h
      rcases hr : Sys.run codec hook es r.1 with _ | r2
      · rw [hr] at h; cases h
      · rw [hr] at h
        simp only [Option.some.injEq, Prod.mk.injEq] at h
        obtain ⟨rfl, rfl⟩ := h
        obtain ⟨a1, a2, a3, a4⟩ := step_beforeErase codec hook x r.1 e r.2 hcount hpc
          (fun n hn => hpos n (by rw [hn]; exact List.mem_cons_self _ _)) hs
        obtain ⟨b1, b2, b3, b4⟩ := ih r.1 r2.1 r2.2 a1 a2
          (fun n hn => hpos n (List.mem_cons_of_mem _ hn)) hr
        refine ⟨b1, b2, ?_, b4.trans a4⟩
        intro f hf
        rcases List.mem_append.mp hf with hf | hf
        · exact a3 f hf
        · exact b3 f hf

/-- Claim C9.  `Shutdown` has just been called while `getProcessingRequests()` is `N > 0`.
Along every schedule during which the counter stays positive, whatever else happens,
`Shutdown` performs neither `erase_all()` nor `io_service_.stop()` and stays before line 91.
A step of `Shutdown` reaches line 91 only from the loop on lines 87 to 89, in a state in
which `getProcessingRequests()` is 0, and `erase_all()` and `stop()` are executed at lines 91
and 93 only. -/
theorem Shutdown_waits_for_requests (codec : RpcMessage) (hook : Hook) (N : Nat) (hN : 0 < N) (x : Sys)
    (hcount : x.srv.getProcessingRequests = N) (hcall : x.shutdownPc = some .entry)
    (evs : List Event) (hpos : ∀ n, Event.setProcessing n ∈ evs → 0 < n)
    (x1 : Sys) (effs : List Effect) (hrun : Sys.run codec hook evs x = some (x1, effs)) :
    Effect.registryEraseAll ∉ effs ∧ Effect.ioStop ∉ effs
      ∧ x1.srv.ioStopRequested = x.srv.ioStopRequested
      ∧ (∃ pc, x1.shutdownPc = some pc ∧ pc.beforeErase = true)
      ∧ (∀ (s : TcpRpcServer) (pc : ShutdownPc), (ShutdownStep s pc).2.1 = .eraseAll →
          pc = .waitRequests ∧ s.getProcessingRequests = 0)
      ∧ (∀ (s : TcpRpcServer) (pc : ShutdownPc),
          (Effect.registryEraseAll ∈ (ShutdownStep s pc).2.2 → pc = .eraseAll)
          ∧ (Effect.ioStop ∈ (ShutdownStep s pc).2.2 → pc = .stopIo)) := by
  obtain ⟨-, a2, a3, a4⟩ := run_beforeErase codec hook evs x x1 effs (by rw [hcount]; exact hN)
    ⟨.entry, hcall, rfl⟩ hpos hrun
  refine ⟨?_, ?_, a4, a2, ?_, ?_⟩
  · intro hmem
    have := a3 _ hmem
    cases this
  · intro hmem
    have := a3 _ hmem
    cases this
  · intro s pc h
    cases pc with
    | entry =>
      cases hf : s.io_service_stopped_ <;> simp [ShutdownStep, hf] at h
    | closeAcceptor =>
      rcases hb : s.acceptor_ with _ | b <;> simp [ShutdownStep, hb] at h
    | waitRequests =>
      by_cases hp : s.getProcessingRequests > 0
      · simp [ShutdownStep, hp] at h
      · exact ⟨rfl, by omega⟩
    | eraseAll => simp [ShutdownStep] at h
    | stopIo => simp [ShutdownStep] at h
    | waitStopped =>
      cases hf : s.io_service_stopped_ <;> simp [ShutdownStep, hf] at h
    | returned => simp [ShutdownStep] at h
  · intro s pc
    cases pc with
    | entry =>
      cases hf : s.io_service_stopped_ <;> simp [ShutdownStep, hf]
    | closeAcceptor =>
      rcases hb : s.acceptor_ with _ | b <;> simp [ShutdownStep, hb]
    | waitRequests =>
      by_cases hp : s.getProcessingRequests > 0
      · simp [ShutdownStep, hp]
      · simp only [ShutdownStep, hp, if_false]
        simp
    | eraseAll => simp [ShutdownStep]
    | stopIo => simp [ShutdownStep]
    | waitStopped =>
      cases hf : s.io_service_stopped_ <;> simp [ShutdownStep, hf]
    | returned => simp [ShutdownStep]

theorem Shutdown_waits_for_requests_witness :
    Effect.registryEraseAll ∉ [Effect.yield, Effect.yield, Effect.yield]
      ∧ Effect.ioStop ∉ [Effect.yield, Effect.yield, Effect.yield]
      ∧ (Sys.run sampleCodec sampleHook
            [.shutdownStep, .shutdownStep, .shutdownStep, .setProcessing 2, .shutdownStep,
             .shutdownStep] sampleBusy).map (fun r => (r.1.shutdownPc, r.2))
          = some (some ShutdownPc.waitRequests, [Effect.yield, Effect.yield, Effect.yield]) :=
  have h := Shutdown_waits_for_requests sampleCodec sampleHook 3 (by decide) sampleBusy rfl rfl
    [.shutdownStep, .shutdownStep, .shutdownStep, .setProcessing 2, .shutdownStep,
     .shutdownStep]
    (by intro n hn; simp at hn; omega)
    ((Sys.run sampleCodec sampleHook
        [.shutdownStep, .shutdownStep, .shutdownStep, .setProcessing 2, .shutdownStep,
         .shutdownStep] sampleBusy).get (by decide)).1
    [Effect.yield, Effect.yield, Effect.yield] (by decide)
  ⟨h.1, h.2.1, by decide⟩

end pbrpcpp
